import Mathlib

/-!
Verification of the GNS3 topology-to-configuration generator
(`codes_rip/get_topology.py`, `codes_rip/cfg_generation.py`,
`codes_bgp/get_topology_bgp.py`, `codes_bgp/cfg_generation_bgp.py`,
`codes_ospf/ospfv3_gen.py`).

The Python code is shallowly embedded: machine-level IP addresses are `Nat`
values below `2 ^ w` (`w` = 32 for IPv4, 128 for IPv6), networks are an
aligned base address plus a prefix length, dictionaries keyed by router name
are total functions `String → _` built by pointwise update (matching
`defaultdict` / dict-assignment semantics), and Python exceptions
(`IndexError` on `hosts[1]`, address-constructor range errors, `KeyError`)
are modelled with `Option`.
-/

/-! ## Address-block arithmetic (`ipaddress` essentials) -/

/-- `num_addresses` of a block with prefix length `p` in a `w`-bit family. -/
def blockSize (w p : Nat) : Nat := 2 ^ (w - p)

/-- `ipaddress.ip_network(x).supernet(new_prefix=p)`: the enclosing block of
prefix length `p` that contains address `x` (host bits of `x` are dropped). -/
def supernetOfAddr (w p x : Nat) : Nat := x / blockSize w p * blockSize w p

/-- `ipaddress.ip_network(f"{x}/{p}", strict=False)`: clears the host bits of
`x`, keeping the network part at prefix length `p`. -/
def hostBitsCleared (w p x : Nat) : Nat := x - x % blockSize w p

/-- Integer value of `current_net.netmask` for prefix length `p`. -/
def netmaskVal (w p : Nat) : Nat := 2 ^ w - blockSize w p

/-- The next-block computation of `codes_rip/get_topology.py` lines 124-126
(also `codes_rip/cfg_generation.py` lines 73-75): build the single-address
network at `base + num_addresses` and take its supernet at the original
prefix length. -/
def ripNextNet (w p cur : Nat) : Nat := supernetOfAddr w p (cur + blockSize w p)

/-- The next-block computation of `codes_bgp/get_topology_bgp.py` lines
113-115: add `num_addresses` to the base and reparse at the same prefix
length with `strict=False`. -/
def bgpNextNet (w p cur : Nat) : Nat := hostBitsCleared w p (cur + blockSize w p)

/-- Membership of an address in the block that starts at `b`. -/
def inBlock (w p b x : Nat) : Prop := b ≤ x ∧ x < b + blockSize w p

theorem blockSize_pos (w p : Nat) : 0 < blockSize w p :=
  Nat.pos_pow_of_pos _ (by decide)

theorem supernetOfAddr_eq_hostBitsCleared (w p x : Nat) :
    supernetOfAddr w p x = hostBitsCleared w p x := by
  unfold supernetOfAddr hostBitsCleared
  rw [Nat.mul_comm]
  have := Nat.div_add_mod x (blockSize w p)
  omega

theorem ripNextNet_of_aligned (w p cur : Nat) (h : cur % blockSize w p = 0) :
    ripNextNet w p cur = cur + blockSize w p := by
  unfold ripNextNet supernetOfAddr
  have hdvd : blockSize w p ∣ cur + blockSize w p :=
    Dvd.dvd.add (Nat.dvd_of_mod_eq_zero h) dvd_rfl
  exact Nat.div_mul_cancel hdvd

/-! ## String renderings of addresses

`str(IPv4Address(x))` is the dotted decimal quad; `str(IPv6Address(x))` is
the RFC-5952 compressed colon-hex form produced by
`ipaddress._string_from_ip_int` / `_compress_hextets`. -/

/-- `str(IPv4Address(x))`: dotted decimal quad of the low 32 bits. -/
def ipv4Str (x : Nat) : String :=
  Nat.repr (x / 2 ^ 24 % 256) ++ "." ++ Nat.repr (x / 2 ^ 16 % 256) ++ "." ++
    Nat.repr (x / 2 ^ 8 % 256) ++ "." ++ Nat.repr (x % 256)

/-- The eight 16-bit hextets of an IPv6 address, most significant first. -/
def ipv6Hextets (x : Nat) : List Nat :=
  [x / 2 ^ 112 % 65536, x / 2 ^ 96 % 65536, x / 2 ^ 80 % 65536,
   x / 2 ^ 64 % 65536, x / 2 ^ 48 % 65536, x / 2 ^ 32 % 65536,
   x / 2 ^ 16 % 65536, x % 65536]

/-- Lower-case hexadecimal rendering of one hextet (`'%x' % h`). -/
def hexStr (h : Nat) : String := String.mk (Nat.toDigits 16 h)

/-- The scan of `ipaddress._compress_hextets` that locates the leftmost
longest run of zero hextets: arguments are the remaining hextets, the current
index, the start and length of the current zero run, and the start and length
of the best run seen so far; returns the best `(start, length)`. -/
def bestZeroRunAux : List Nat → Nat → Nat → Nat → Nat → Nat → Nat × Nat
  | [], _, _, _, bs, bl => (bs, bl)
  | h :: t, idx, cs, cl, bs, bl =>
    if h = 0 then
      let cs' := if cl = 0 then idx else cs
      let cl' := cl + 1
      if bl < cl' then bestZeroRunAux t (idx + 1) cs' cl' cs' cl'
      else bestZeroRunAux t (idx + 1) cs' cl' bs bl
    else bestZeroRunAux t (idx + 1) 0 0 bs bl

/-- Leftmost longest run of zero hextets, as `(start, length)`. -/
def bestZeroRun (hs : List Nat) : Nat × Nat := bestZeroRunAux hs 0 0 0 0 0

/-- `str(IPv6Address(x))`: hextets in lower-case hex, with the leftmost
longest run of two or more zero hextets compressed to `::`
(`ipaddress._compress_hextets`). -/
def ipv6Str (x : Nat) : String :=
  let hs := ipv6Hextets x
  let br := bestZeroRun hs
  let strs := hs.map hexStr
  if 2 ≤ br.2 then
    let parts := strs.take br.1 ++ [""] ++ strs.drop (br.1 + br.2) ++
      (if br.1 + br.2 = 8 then [""] else [])
    String.intercalate ":" (if br.1 = 0 then "" :: parts else parts)
  else
    String.intercalate ":" strs

/-- `str()` of an address integer, dispatching on the address family the way
`ipaddress` does on the object's class. -/
def ipStr (w x : Nat) : String := if w = 32 then ipv4Str x else ipv6Str x

example : ipv6Str 0x0a000002 = "::a00:2" := by decide
example : ipv6Str 0 = "::" := by decide
example : ipv6Str 0x20010db8000000000000000000000001 = "2001:db8::1" := by rfl
example : ipv4Str 0x0a000001 = "10.0.0.1" := by rfl
example : ipv4Str (netmaskVal 32 30) = "255.255.255.252" := by rfl

/-! ## Claim C8: legacy supernet advance vs direct masked advance -/

/-- C8: for every block whose base address is aligned to its prefix length,
the legacy next-block computation of the RIP variant (single-address network
at `base + num_addresses`, then supernet at the original prefix length)
yields the same network as the direct arithmetic advance of the BGP variant
(add the block's address count and reparse non-strictly at the same prefix
length); on aligned bases both are plain addition of the block size. -/
theorem c8_nextnet_equivalence (w p cur : Nat)
    (halign : cur % blockSize w p = 0) :
    ripNextNet w p cur = bgpNextNet w p cur ∧
      ripNextNet w p cur = cur + blockSize w p := by
  refine ⟨?_, ripNextNet_of_aligned w p cur halign⟩
  unfold ripNextNet bgpNextNet
  exact supernetOfAddr_eq_hostBitsCleared w p (cur + blockSize w p)

/-- Witness for C8 at the scenario block `10.0.0.0/30`. -/
theorem c8_nextnet_equivalence_witness :
    167772160 % blockSize 32 30 = 0 ∧
      (ripNextNet 32 30 167772160 = bgpNextNet 32 30 167772160 ∧
        ripNextNet 32 30 167772160 = 167772160 + blockSize 32 30) :=
  ⟨by decide, c8_nextnet_equivalence 32 30 167772160 (by decide)⟩

/-! ## Router-ID derivation (claim C4)

`codes_bgp/cfg_generation_bgp.py` lines 5-15 and the inline derivation in
`codes_ospf/ospfv3_gen.py` lines 95-101.  Router names in this project are
ASCII, so Python's `str.isdigit` coincides with `Char.isDigit`. -/

/-- `int(...)` applied to a string of decimal digits. -/
def digitsToNat (ds : List Char) : Nat :=
  ds.foldl (fun acc c => 10 * acc + (c.toNat - '0'.toNat)) 0

/-- `re.search(r"\d+", s)`: the first maximal run of decimal digits in `s`
(empty list when `s` has no digit). -/
def firstDigitRun (s : String) : List Char :=
  (s.toList.dropWhile (fun c => !c.isDigit)).takeWhile (fun c => c.isDigit)

/-- `generate_router_id` of `codes_bgp/cfg_generation_bgp.py`: the numeric
value of the first digit run replicated into the four octet positions, with
fallback `"1.1.1.1"` when the name has no digit. -/
def generate_router_id (s : String) : String :=
  let run := firstDigitRun s
  if run.isEmpty then "1.1.1.1"
  else
    let n := Nat.repr (digitsToNat run)
    n ++ "." ++ n ++ "." ++ n ++ "." ++ n

/-- The router-ID derivation inlined in `create_ospfv3_config`
(`codes_ospf/ospfv3_gen.py` lines 97-101):
`''.join(filter(str.isdigit, router_name))` replicated verbatim into the four
positions, with fallback `"1.1.1.1"` when the name has no digit. -/
def ospfRouterId (s : String) : String :=
  let ds := s.toList.filter (fun c => c.isDigit)
  if ds.isEmpty then "1.1.1.1"
  else
    let t := String.mk ds
    t ++ "." ++ t ++ "." ++ t ++ "." ++ t

/-- C4 counterexample: on the name `"R1a2"` the BGP generator keeps only the
first digit run (`"1"`) while the OSPF generator concatenates all digits
(`"12"`), so the two derivations disagree. -/
theorem c4_counterexample :
    generate_router_id "R1a2" = "1.1.1.1" ∧
      ospfRouterId "R1a2" = "12.12.12.12" ∧
      generate_router_id "R1a2" ≠ ospfRouterId "R1a2" := by
  refine ⟨by decide, by decide, by decide⟩

theorem firstDigitRun_eq_nil_of_no_digit (s : String)
    (h : s.toList.filter (fun c => c.isDigit) = []) : firstDigitRun s = [] := by
  unfold firstDigitRun
  have hall : ∀ c ∈ s.toList, ¬ (c.isDigit = true) := by
    intro c hc
    exact (List.filter_eq_nil_iff.mp h) c hc
  have hdrop : s.toList.dropWhile (fun c => !c.isDigit) = [] := by
    rw [List.dropWhile_eq_nil_iff]
    intro c hc
    simpa using hall c hc
  rw [hdrop]
  rfl

/-- C4 amended: each derivation is a pure function of the name; when the name
has no digit both fall back to `"1.1.1.1"`; and they agree on every name
whose digit characters form a single contiguous run that is the canonical
decimal rendering of its value (no leading zeros).  (As the counterexample
shows, they disagree in general: the BGP generator uses only the first digit
run while the OSPF generator concatenates all digits.) -/
theorem c4_router_id_amended (s : String) :
    (s.toList.filter (fun c => c.isDigit) = [] →
      generate_router_id s = "1.1.1.1" ∧ ospfRouterId s = "1.1.1.1") ∧
    (∀ ds : List Char, ds ≠ [] →
      s.toList.filter (fun c => c.isDigit) = ds →
      firstDigitRun s = ds →
      Nat.repr (digitsToNat ds) = String.mk ds →
      generate_router_id s = ospfRouterId s) := by
  constructor
  · intro h
    constructor
    · unfold generate_router_id
      rw [firstDigitRun_eq_nil_of_no_digit s h]
      rfl
    · unfold ospfRouterId
      rw [h]
      rfl
  · intro ds hne hfilter hrun hrepr
    have hemp : ds.isEmpty = false := by
      cases ds with
      | nil => exact absurd rfl hne
      | cons a t => rfl
    have hfilter2 : List.filter (fun c => c.isDigit) s.data = ds := hfilter
    have hnotall : ¬ (∀ a ∈ s.data, a.isDigit = false) := by
      intro hall
      apply hne
      rw [← hfilter2]
      exact List.filter_eq_nil_iff.mpr (by intro c hc; simp [hall c hc])
    simp [generate_router_id, ospfRouterId, hrun, hfilter2, hemp, hrepr,
      hnotall]

/-- Witness for C4 amended at the name `"R7"`. -/
theorem c4_router_id_amended_witness :
    (['R', '7'].filter (fun c => c.isDigit) = ['7'] ∧
      firstDigitRun "R7" = ['7'] ∧
      Nat.repr (digitsToNat ['7']) = String.mk ['7']) ∧
    generate_router_id "R7" = ospfRouterId "R7" :=
  ⟨⟨by decide, by decide, by decide⟩,
    (c4_router_id_amended "R7").2 ['7'] (by decide) (by decide) (by decide)
      (by decide)⟩

/-! ## ASN assignment (claim C3)

`codes_bgp/get_topology_bgp.py` lines 121-123:
`for idx, router_name in enumerate(sorted(routers_list)):
router_to_asn[router_name] = asn_base + idx + 1`. -/

/-- Lexicographic (code-point) comparison of character lists: the order
Python uses to compare strings. -/
def lexLe : List Char → List Char → Bool
  | [], _ => true
  | _ :: _, [] => false
  | c :: cs, d :: ds => if c = d then lexLe cs ds else decide (c < d)

/-- Python string comparison `a <= b` (code-point lexicographic). -/
def strLe (a b : String) : Bool := lexLe a.toList b.toList

/-- Insert into a sorted list, keeping it sorted. -/
def insertSorted (x : String) : List String → List String
  | [] => [x]
  | y :: ys => if strLe x y then x :: y :: ys else y :: insertSorted x ys

/-- Python `sorted` on strings: ascending code-point lexicographic order
(insertion sort; on strings the result does not depend on the sorting
algorithm, equal elements being identical). -/
def sortNames (rs : List String) : List String := rs.foldr insertSorted []

theorem lexLe_refl : ∀ l : List Char, lexLe l l = true := by
  intro l
  induction l with
  | nil => rfl
  | cons c cs ih =>
    show (if c = c then lexLe cs cs else decide (c < c)) = true
    rw [if_pos rfl]
    exact ih

theorem lexLe_total : ∀ a b : List Char, lexLe a b = true ∨ lexLe b a = true := by
  intro a
  induction a with
  | nil => intro b; exact Or.inl rfl
  | cons c cs ih =>
    intro b
    cases b with
    | nil => exact Or.inr rfl
    | cons d ds =>
      by_cases hcd : c = d
      · have hdc : d = c := hcd.symm
        show (if c = d then lexLe cs ds else _) = true ∨
          (if d = c then lexLe ds cs else _) = true
        rw [if_pos hcd, if_pos hdc]
        exact ih ds
      · have hdc : d ≠ c := fun h => hcd h.symm
        show (if c = d then _ else decide (c < d)) = true ∨
          (if d = c then _ else decide (d < c)) = true
        rw [if_neg hcd, if_neg hdc]
        rcases lt_or_gt_of_ne hcd with h | h
        · exact Or.inl (decide_eq_true h)
        · exact Or.inr (decide_eq_true h)

theorem lexLe_trans : ∀ a b c : List Char,
    lexLe a b = true → lexLe b c = true → lexLe a c = true := by
  intro a
  induction a with
  | nil => intro b c _ _; rfl
  | cons x xs ih =>
    intro b c hab hbc
    cases b with
    | nil => exact absurd hab (by simp [lexLe])
    | cons y ys =>
      cases c with
      | nil => exact absurd hbc (by simp [lexLe])
      | cons z zs =>
        have hab' : (if x = y then lexLe xs ys else decide (x < y)) = true := hab
        have hbc' : (if y = z then lexLe ys zs else decide (y < z)) = true := hbc
        show (if x = z then lexLe xs zs else decide (x < z)) = true
        by_cases hxy : x = y
        · rw [if_pos hxy] at hab'
          by_cases hyz : y = z
          · rw [if_pos hyz] at hbc'
            rw [if_pos (hxy.trans hyz)]
            exact ih ys zs hab' hbc'
          · rw [if_neg hyz] at hbc'
            have hlt : y < z := of_decide_eq_true hbc'
            have hxz : x ≠ z := fun h => hyz (hxy ▸ h)
            rw [if_neg hxz]
            exact decide_eq_true (hxy ▸ hlt)
        · rw [if_neg hxy] at hab'
          have hltxy : x < y := of_decide_eq_true hab'
          by_cases hyz : y = z
          · have hxz : x ≠ z := fun h => hxy (h.trans hyz.symm)
            rw [if_neg hxz]
            exact decide_eq_true (hyz ▸ hltxy)
          · rw [if_neg hyz] at hbc'
            have hltyz : y < z := of_decide_eq_true hbc'
            have hltxz : x < z := lt_trans hltxy hltyz
            rw [if_neg (ne_of_lt hltxz)]
            exact decide_eq_true hltxz

theorem lexLe_antisymm : ∀ a b : List Char,
    lexLe a b = true → lexLe b a = true → a = b := by
  intro a
  induction a with
  | nil =>
    intro b _ hba
    cases b with
    | nil => rfl
    | cons d ds => exact absurd hba (by simp [lexLe])
  | cons c cs ih =>
    intro b hab hba
    cases b with
    | nil => exact absurd hab (by simp [lexLe])
    | cons d ds =>
      have hab' : (if c = d then lexLe cs ds else decide (c < d)) = true := hab
      have hba' : (if d = c then lexLe ds cs else decide (d < c)) = true := hba
      by_cases hcd : c = d
      · rw [if_pos hcd] at hab'
        rw [if_pos hcd.symm] at hba'
        rw [hcd, ih ds hab' hba']
      · rw [if_neg hcd] at hab'
        rw [if_neg (fun h => hcd h.symm)] at hba'
        have h1 : c < d := of_decide_eq_true hab'
        have h2 : d < c := of_decide_eq_true hba'
        exact absurd h1 (not_lt_of_gt h2)

theorem strLe_refl (a : String) : strLe a a = true := lexLe_refl _

theorem strLe_total (a b : String) : strLe a b = true ∨ strLe b a = true :=
  lexLe_total _ _

theorem strLe_trans (a b c : String) (h1 : strLe a b = true)
    (h2 : strLe b c = true) : strLe a c = true := lexLe_trans _ _ _ h1 h2

theorem strLe_antisymm (a b : String) (h1 : strLe a b = true)
    (h2 : strLe b a = true) : a = b := by
  have hdata : a.toList = b.toList := lexLe_antisymm _ _ h1 h2
  cases a with
  | mk da =>
    cases b with
    | mk db =>
      have : da = db := hdata
      rw [this]

/-- The `enumerate` loop body: walk the sorted names with a running index,
assigning `asn_base + idx + 1` by dict update (later assignments win, as in
Python). -/
def assignAsnAux (asnBase : Nat) :
    List String → Nat → (String → Option Nat) → (String → Option Nat)
  | [], _, m => m
  | n :: ns, idx, m =>
    assignAsnAux asnBase ns (idx + 1)
      (fun r => if r = n then some (asnBase + idx + 1) else m r)

/-- `router_to_asn` as built by `extract_topology_bgp`. -/
def router_to_asn (rs : List String) (asnBase : Nat) : String → Option Nat :=
  assignAsnAux asnBase (sortNames rs) 0 (fun _ => none)

theorem assignAsnAux_not_mem (asnBase : Nat) :
    ∀ (ns : List String) (idx : Nat) (m : String → Option Nat) (n : String),
      n ∉ ns → assignAsnAux asnBase ns idx m n = m n := by
  intro ns
  induction ns with
  | nil => intro idx m n _; rfl
  | cons hd t ih =>
    intro idx m n hn
    have hne : n ≠ hd := fun h => hn (h ▸ List.mem_cons_self hd t)
    have hnt : n ∉ t := fun h => hn (List.mem_cons_of_mem hd h)
    show assignAsnAux asnBase t (idx + 1) _ n = m n
    rw [ih (idx + 1) _ n hnt]
    simp [hne]

theorem assignAsnAux_get (asnBase : Nat) :
    ∀ (ns : List String) (idx : Nat) (m : String → Option Nat) (i : Nat)
      (h : i < ns.length), ns.Nodup →
      assignAsnAux asnBase ns idx m (ns.get ⟨i, h⟩) =
        some (asnBase + idx + i + 1) := by
  intro ns
  induction ns with
  | nil => intro idx m i h; exact absurd h (Nat.not_lt_zero i)
  | cons hd t ih =>
    intro idx m i h hnd
    have hhd : hd ∉ t := (List.nodup_cons.mp hnd).1
    have hndt : t.Nodup := (List.nodup_cons.mp hnd).2
    cases i with
    | zero =>
      show assignAsnAux asnBase t (idx + 1) _ hd = _
      rw [assignAsnAux_not_mem asnBase t (idx + 1) _ hd hhd]
      simp
    | succ j =>
      have hj : j < t.length := Nat.lt_of_succ_lt_succ h
      show assignAsnAux asnBase t (idx + 1) _ (t.get ⟨j, hj⟩) = _
      rw [ih (idx + 1) _ j hj hndt]
      congr 1
      omega

theorem assignAsnAux_mem_isSome (asnBase : Nat) :
    ∀ (ns : List String) (idx : Nat) (m : String → Option Nat) (n : String),
      n ∈ ns → ∃ v, assignAsnAux asnBase ns idx m n = some v := by
  intro ns
  induction ns with
  | nil => intro idx m n hn; exact absurd hn (List.not_mem_nil n)
  | cons hd t ih =>
    intro idx m n hn
    by_cases hnt : n ∈ t
    · exact ih (idx + 1) _ n hnt
    · have hne : n = hd := by
        rcases List.mem_cons.mp hn with h | h
        · exact h
        · exact absurd h hnt
      refine ⟨asnBase + idx + 1, ?_⟩
      show assignAsnAux asnBase t (idx + 1) _ n = _
      rw [assignAsnAux_not_mem asnBase t (idx + 1) _ n hnt]
      simp [hne]

theorem insertSorted_perm (x : String) :
    ∀ l : List String, (insertSorted x l).Perm (x :: l) := by
  intro l
  induction l with
  | nil => exact List.Perm.refl _
  | cons y ys ih =>
    show (if strLe x y then x :: y :: ys else y :: insertSorted x ys).Perm _
    by_cases h : strLe x y = true
    · rw [if_pos h]
    · rw [if_neg h]
      exact (ih.cons y).trans (List.Perm.swap x y ys)

theorem sortNames_perm (rs : List String) : (sortNames rs).Perm rs := by
  induction rs with
  | nil => exact List.Perm.refl _
  | cons r t ih =>
    show (insertSorted r (sortNames t)).Perm (r :: t)
    exact (insertSorted_perm r (sortNames t)).trans (ih.cons r)

theorem insertSorted_sorted (x : String) :
    ∀ l : List String, l.Sorted (fun a b => strLe a b = true) →
      (insertSorted x l).Sorted (fun a b => strLe a b = true) := by
  intro l
  induction l with
  | nil => intro _; exact List.sorted_singleton x
  | cons y ys ih =>
    intro hs
    obtain ⟨hy, hys⟩ := List.sorted_cons.mp hs
    show (if strLe x y then x :: y :: ys else
      y :: insertSorted x ys).Sorted (fun a b => strLe a b = true)
    by_cases h : strLe x y = true
    · rw [if_pos h]
      refine List.sorted_cons.mpr ⟨?_, hs⟩
      intro b hb
      rcases List.mem_cons.mp hb with rfl | hb
      · exact h
      · exact strLe_trans x y b h (hy b hb)
    · rw [if_neg h]
      refine List.sorted_cons.mpr ⟨?_, ih hys⟩
      intro b hb
      have hb2 : b ∈ x :: ys := (insertSorted_perm x ys).mem_iff.mp hb
      rcases List.mem_cons.mp hb2 with rfl | hb3
      · rcases strLe_total b y with h1 | h1
        · exact absurd h1 h
        · exact h1
      · exact hy b hb3

theorem sortNames_sorted (rs : List String) :
    (sortNames rs).Sorted (fun a b => strLe a b = true) := by
  induction rs with
  | nil => exact List.sorted_nil
  | cons r t ih => exact insertSorted_sorted r (sortNames t) ih

theorem sortNames_eq_of_perm (rs1 rs2 : List String) (h : rs1.Perm rs2) :
    sortNames rs1 = sortNames rs2 := by
  haveI : IsAntisymm String (fun a b => strLe a b = true) :=
    ⟨fun a b h1 h2 => strLe_antisymm a b h1 h2⟩
  refine List.eq_of_perm_of_sorted ?_ (sortNames_sorted rs1)
    (sortNames_sorted rs2)
  exact ((sortNames_perm rs1).trans h).trans (sortNames_perm rs2).symm

/-- C3: with `N` distinct router names, ASN assignment is a bijection from
the name set onto `asnBase+1 .. asnBase+N`: the name at zero-based index `i`
of the lexicographically sorted name list receives `asnBase + i + 1`, the
map is injective on the name set, its image is exactly the integer interval,
and it depends only on the name set and base, not on insertion order. -/
theorem c3_asn_bijection (rs : List String) (asnBase : Nat) (hnd : rs.Nodup) :
    (∀ i (h : i < (sortNames rs).length),
        router_to_asn rs asnBase ((sortNames rs).get ⟨i, h⟩) =
          some (asnBase + i + 1)) ∧
    (∀ n1 ∈ rs, ∀ n2 ∈ rs,
        router_to_asn rs asnBase n1 = router_to_asn rs asnBase n2 → n1 = n2) ∧
    (∀ v, (∃ n ∈ rs, router_to_asn rs asnBase n = some v) ↔
        (asnBase + 1 ≤ v ∧ v ≤ asnBase + rs.length)) ∧
    (∀ rs2, rs2.Nodup → (∀ n, n ∈ rs ↔ n ∈ rs2) →
        router_to_asn rs asnBase = router_to_asn rs2 asnBase) := by
  have hsnd : (sortNames rs).Nodup := ((sortNames_perm rs).nodup_iff).mpr hnd
  have hget : ∀ i (h : i < (sortNames rs).length),
      router_to_asn rs asnBase ((sortNames rs).get ⟨i, h⟩) =
        some (asnBase + i + 1) := by
    intro i h
    unfold router_to_asn
    rw [assignAsnAux_get asnBase (sortNames rs) 0 _ i h hsnd]
    simp
  have hlen : (sortNames rs).length = rs.length := (sortNames_perm rs).length_eq
  refine ⟨hget, ?_, ?_, ?_⟩
  · intro n1 h1 n2 h2 heq
    obtain ⟨i1, hi1⟩ := List.mem_iff_get.mp (((sortNames_perm rs).mem_iff).mpr h1)
    obtain ⟨i2, hi2⟩ := List.mem_iff_get.mp (((sortNames_perm rs).mem_iff).mpr h2)
    rw [← hi1, ← hi2] at heq
    rw [hget i1.1 i1.2, hget i2.1 i2.2] at heq
    have : i1.1 = i2.1 := by
      have := Option.some.inj heq
      omega
    rw [← hi1, ← hi2]
    congr 1
    exact Fin.ext this
  · intro v
    constructor
    · rintro ⟨n, hn, hv⟩
      obtain ⟨i, hi⟩ := List.mem_iff_get.mp (((sortNames_perm rs).mem_iff).mpr hn)
      rw [← hi, hget i.1 i.2] at hv
      have hvv := Option.some.inj hv
      have := i.2
      omega
    · rintro ⟨h1, h2⟩
      have hi : v - asnBase - 1 < (sortNames rs).length := by omega
      refine ⟨(sortNames rs).get ⟨v - asnBase - 1, hi⟩, ?_, ?_⟩
      · exact ((sortNames_perm rs).mem_iff).mp (List.get_mem _ _ _)
      · rw [hget _ hi]
        congr 1
        omega
  · intro rs2 hnd2 hmem
    have hperm : rs.Perm rs2 := by
      rw [List.perm_ext_iff_of_nodup hnd hnd2]
      exact hmem
    unfold router_to_asn
    rw [sortNames_eq_of_perm rs rs2 hperm]

/-- Witness for C3 on the router set `R2, R1` (insertion order reversed). -/
theorem c3_asn_bijection_witness :
    (["R2", "R1"] : List String).Nodup ∧
    ((∀ i (h : i < (sortNames ["R2", "R1"]).length),
        router_to_asn ["R2", "R1"] 65000 ((sortNames ["R2", "R1"]).get ⟨i, h⟩) =
          some (65000 + i + 1)) ∧
    (∀ n1 ∈ (["R2", "R1"] : List String), ∀ n2 ∈ (["R2", "R1"] : List String),
        router_to_asn ["R2", "R1"] 65000 n1 = router_to_asn ["R2", "R1"] 65000 n2 →
          n1 = n2) ∧
    (∀ v, (∃ n ∈ (["R2", "R1"] : List String),
        router_to_asn ["R2", "R1"] 65000 n = some v) ↔
        (65000 + 1 ≤ v ∧ v ≤ 65000 + (["R2", "R1"] : List String).length)) ∧
    (∀ rs2, rs2.Nodup → (∀ n, n ∈ (["R2", "R1"] : List String) ↔ n ∈ rs2) →
        router_to_asn ["R2", "R1"] 65000 = router_to_asn rs2 65000)) :=
  ⟨by decide, c3_asn_bijection ["R2", "R1"] 65000 (by decide)⟩

/-! ## The RIP fixed-block allocator (claims C1, C7, C9)

Addressing logic of `codes_rip/get_topology.py` lines 93-126 (repeated in
`codes_rip/cfg_generation.py` lines 27-75): walk the link list, hand the
current block's `hosts()[0]` / `hosts()[1]` to the two endpoints, record the
block in each endpoint's RIP network set, and advance `current_net` by the
legacy supernet step. -/

/-- One link of the normalized topology. -/
structure Link where
  a : String
  aIface : String
  b : String
  bIface : String
deriving DecidableEq

/-- One entry of `interfaces_cfg[router]` in the RIP variant. -/
structure IfaceRip where
  name : String
  ip : String
  mask : String
deriving DecidableEq

/-- `defaultdict(list)` append: `m[k].append(v)`. -/
def updList {α : Type} (m : String → List α) (k : String) (v : α) :
    String → List α :=
  fun r => if r = k then m r ++ [v] else m r

/-- `defaultdict(set)` insertion `m[k].add(s)` (order of the carrier list is
irrelevant to the final sorted output). -/
def setAdd (m : String → List String) (k : String) (s : String) :
    String → List String :=
  fun r => if r = k then (if s ∈ m r then m r else m r ++ [s]) else m r

/-- `hosts = list(current_net.hosts()); (hosts[0], hosts[1])`: for two or
more host bits Python excludes the network and broadcast addresses; a /31
yields both addresses; a /32 has a single host, so `hosts[1]` raises
`IndexError` (`none`). -/
def hostsFirstTwo (w p cur : Nat) : Option (Nat × Nat) :=
  if p + 2 ≤ w then some (cur + 1, cur + 2)
  else if p + 1 = w then some (cur, cur + 1)
  else none

/-- Allocator state: current block base, `interfaces_cfg`, `rip_networks`,
and the trace of block bases consumed so far (one per processed link). -/
structure RipState where
  cur : Nat
  ifaces : String → List IfaceRip
  nets : String → List String
  subnets : List Nat

/-- Body of the `for link in links` loop of `extract_topology`; `none`
models the `IndexError` on `hosts[1]` and the range error raised by
`ipaddress.ip_network` when the advanced address leaves the family space. -/
def ripStep (w p : Nat) (st : RipState) (l : Link) : Option RipState :=
  (hostsFirstTwo w p st.cur).bind (fun ips =>
    let if1 := updList st.ifaces l.a
      ⟨l.aIface, ipStr w ips.1, ipStr w (netmaskVal w p)⟩
    let if2 := updList if1 l.b
      ⟨l.bIface, ipStr w ips.2, ipStr w (netmaskVal w p)⟩
    let n1 := setAdd st.nets l.a (ipStr w st.cur)
    let n2 := setAdd n1 l.b (ipStr w st.cur)
    if st.cur + blockSize w p < 2 ^ w then
      some ⟨ripNextNet w p st.cur, if2, n2, st.subnets ++ [st.cur]⟩
    else none)

/-- The loop as a fold over the link list. -/
def ripFold (w p : Nat) (ls : List Link) (ost : Option RipState) :
    Option RipState :=
  ls.foldl (fun acc l => acc.bind (fun st => ripStep w p st l)) ost

/-- Addressing part of `extract_topology`, starting from the strictly parsed
(and hence aligned) base network. -/
def extract_topology (w p : Nat) (links : List Link) (base : Nat) :
    Option RipState :=
  ripFold w p links (some ⟨base, fun _ => [], fun _ => [], []⟩)

/-- The per-router `rip_networks` value as emitted into `topology.json`:
`sorted(rip_networks.get(router_name, []))`. -/
def ripNetworksOut (st : RipState) (r : String) : List String :=
  sortNames (st.nets r)

/-- `hosts()[0]` of a valid (prefix length below width) block. -/
def hostA (w p cur : Nat) : Nat := if p + 2 ≤ w then cur + 1 else cur

/-- `hosts()[1]` of a valid (prefix length below width) block. -/
def hostB (w p cur : Nat) : Nat := if p + 2 ≤ w then cur + 2 else cur + 1

theorem hostsFirstTwo_of_lt (w p cur : Nat) (hp : p < w) :
    hostsFirstTwo w p cur = some (hostA w p cur, hostB w p cur) := by
  unfold hostsFirstTwo hostA hostB
  by_cases h2 : p + 2 ≤ w
  · simp [h2]
  · have h1 : p + 1 = w := by omega
    simp [h2, h1]

/-- Interface records contributed to router `r` by the links `ls` when the
allocator starts them at block base `cur` (one record per incidence, in link
order, `a` side before `b` side). -/
def ripIfacesFrom (w p : Nat) : List Link → Nat → String → List IfaceRip
  | [], _, _ => []
  | l :: ls, cur, r =>
    (if r = l.a then
      [⟨l.aIface, ipStr w (hostA w p cur), ipStr w (netmaskVal w p)⟩] else []) ++
    (if r = l.b then
      [⟨l.bIface, ipStr w (hostB w p cur), ipStr w (netmaskVal w p)⟩] else []) ++
    ripIfacesFrom w p ls (cur + blockSize w p) r

/-- Block bases consumed by a run over `ls` starting at `cur`. -/
def subsFrom (w p : Nat) : List Link → Nat → List Nat
  | [], _ => []
  | _ :: ls, cur => cur :: subsFrom w p ls (cur + blockSize w p)

theorem updList_updList {α : Type} (m : String → List α) (a b : String)
    (x y : α) (r : String) :
    updList (updList m a x) b y r =
      m r ++ (if r = a then [x] else []) ++ (if r = b then [y] else []) := by
  unfold updList
  split_ifs <;> simp

theorem subsFrom_eq_map_range (w p : Nat) :
    ∀ (ls : List Link) (cur : Nat),
      subsFrom w p ls cur =
        (List.range ls.length).map (fun k => cur + k * blockSize w p) := by
  intro ls
  induction ls with
  | nil => intro cur; rfl
  | cons l t ih =>
    intro cur
    have hstep : subsFrom w p (l :: t) cur =
        cur :: subsFrom w p t (cur + blockSize w p) := rfl
    rw [hstep, ih (cur + blockSize w p), List.length_cons,
      List.range_succ_eq_map, List.map_cons, List.map_map]
    congr 1
    · simp
    · refine List.map_congr_left ?_
      intro k _
      show cur + blockSize w p + k * blockSize w p =
        cur + (k + 1) * blockSize w p
      rw [Nat.succ_mul]
      omega

/-- Master characterization of the RIP allocator loop: starting from an
aligned block base with the whole run inside the address space, the fold
succeeds, the final block base has advanced by one block per link, every
router's interface list grows by exactly its per-link contributions, and the
consumed blocks are the trace `subsFrom`. -/
theorem ripFold_characterization (w p : Nat) (hp : p < w) :
    ∀ (ls : List Link) (cur : Nat) (ifs : String → List IfaceRip)
      (nets : String → List String) (tr : List Nat),
      cur % blockSize w p = 0 →
      cur + ls.length * blockSize w p < 2 ^ w →
      ∃ st : RipState,
        ripFold w p ls (some ⟨cur, ifs, nets, tr⟩) = some st ∧
        st.cur = cur + ls.length * blockSize w p ∧
        (∀ r, st.ifaces r = ifs r ++ ripIfacesFrom w p ls cur r) ∧
        st.subnets = tr ++ subsFrom w p ls cur := by
  intro ls
  induction ls with
  | nil =>
    intro cur ifs nets tr _ _
    exact ⟨⟨cur, ifs, nets, tr⟩, rfl, by simp, fun r => by
      show ifs r = ifs r ++ ripIfacesFrom w p [] cur r
      simp [ripIfacesFrom], by
      show tr = tr ++ subsFrom w p [] cur
      simp [subsFrom]⟩
  | cons l t ih =>
    intro cur ifs nets tr halign hspace
    have hlen : (l :: t).length * blockSize w p =
        t.length * blockSize w p + blockSize w p := by
      rw [List.length_cons, Nat.succ_mul]
    have hcheck : cur + blockSize w p < 2 ^ w := by omega
    have halign' : (cur + blockSize w p) % blockSize w p = 0 := by
      rw [Nat.add_mod_right]
      exact halign
    have hspace' : cur + blockSize w p + t.length * blockSize w p < 2 ^ w := by
      omega
    have hstep : ripStep w p ⟨cur, ifs, nets, tr⟩ l =
        some ⟨cur + blockSize w p,
          updList (updList ifs l.a
            ⟨l.aIface, ipStr w (hostA w p cur), ipStr w (netmaskVal w p)⟩) l.b
            ⟨l.bIface, ipStr w (hostB w p cur), ipStr w (netmaskVal w p)⟩,
          setAdd (setAdd nets l.a (ipStr w cur)) l.b (ipStr w cur),
          tr ++ [cur]⟩ := by
      simp [ripStep, hostsFirstTwo_of_lt w p cur hp, hcheck,
        ripNextNet_of_aligned w p cur halign]
    obtain ⟨st, hrun, hcur, hifs, hsubs⟩ := ih (cur + blockSize w p)
      (updList (updList ifs l.a
        ⟨l.aIface, ipStr w (hostA w p cur), ipStr w (netmaskVal w p)⟩) l.b
        ⟨l.bIface, ipStr w (hostB w p cur), ipStr w (netmaskVal w p)⟩)
      (setAdd (setAdd nets l.a (ipStr w cur)) l.b (ipStr w cur))
      (tr ++ [cur]) halign' hspace'
    refine ⟨st, ?_, ?_, ?_, ?_⟩
    · show ripFold w p t ((some (⟨cur, ifs, nets, tr⟩ : RipState)).bind
        (fun s => ripStep w p s l)) = some st
      have hbind : (some (⟨cur, ifs, nets, tr⟩ : RipState)).bind
          (fun s => ripStep w p s l) = ripStep w p ⟨cur, ifs, nets, tr⟩ l := rfl
      rw [hbind, hstep]
      exact hrun
    · rw [hcur, hlen]
      omega
    · intro r
      rw [hifs r, updList_updList]
      have hcons : ripIfacesFrom w p (l :: t) cur r =
          (if r = l.a then
            [⟨l.aIface, ipStr w (hostA w p cur), ipStr w (netmaskVal w p)⟩]
           else []) ++
          (if r = l.b then
            [⟨l.bIface, ipStr w (hostB w p cur), ipStr w (netmaskVal w p)⟩]
           else []) ++
          ripIfacesFrom w p t (cur + blockSize w p) r := rfl
      rw [hcons]
      simp [List.append_assoc]
    · rw [hsubs]
      have hcons : subsFrom w p (l :: t) cur =
          cur :: subsFrom w p t (cur + blockSize w p) := rfl
      rw [hcons]
      simp

/-! ## Claim C1: fixed-block subnets are disjoint and increasing -/

/-- The two-link demo topology of the spec scenarios:
`R1–R2` then `R2–R3`. -/
def demoLinksRip : List Link :=
  [⟨"R1", "FastEthernet0/0", "R2", "FastEthernet0/0"⟩,
   ⟨"R2", "FastEthernet0/1", "R3", "FastEthernet0/1"⟩]

/-- C1: for every link list processed by the fixed-block allocator, with the
base network aligned and all advanced blocks inside the address family's
space, the run succeeds, one block is consumed per link, consecutive block
bases are a full block apart (hence strictly increasing in link order), and
the allocated blocks are pairwise disjoint as address intervals. -/
theorem c1_subnets_disjoint_increasing (w p : Nat) (links : List Link)
    (base : Nat) (hp : p < w) (halign : base % blockSize w p = 0)
    (hspace : base + links.length * blockSize w p < 2 ^ w) :
    ∃ st, extract_topology w p links base = some st ∧
      st.subnets.length = links.length ∧
      (∀ i j (hi : i < st.subnets.length) (hj : j < st.subnets.length),
        i < j →
        st.subnets.get ⟨i, hi⟩ + blockSize w p ≤ st.subnets.get ⟨j, hj⟩) ∧
      (∀ i j (hi : i < st.subnets.length) (hj : j < st.subnets.length),
        i ≠ j → ∀ x, ¬ (inBlock w p (st.subnets.get ⟨i, hi⟩) x ∧
          inBlock w p (st.subnets.get ⟨j, hj⟩) x)) := by
  obtain ⟨st, hrun, _, _, hsubs⟩ := ripFold_characterization w p hp links base
    (fun _ => []) (fun _ => []) [] halign hspace
  have hsubs2 : st.subnets =
      (List.range links.length).map (fun k => base + k * blockSize w p) := by
    rw [hsubs, subsFrom_eq_map_range]
    rfl
  have hlen : st.subnets.length = links.length := by
    rw [hsubs2, List.length_map, List.length_range]
  have hget : ∀ i (hi : i < st.subnets.length),
      st.subnets.get ⟨i, hi⟩ = base + i * blockSize w p := by
    intro i hi
    have hi2 : i < links.length := by rw [← hlen]; exact hi
    rw [List.get_eq_getElem, List.getElem_of_eq hsubs2 hi]
    rw [List.getElem_map, List.getElem_range]
  have hmono : ∀ i j (hi : i < st.subnets.length)
      (hj : j < st.subnets.length), i < j →
      st.subnets.get ⟨i, hi⟩ + blockSize w p ≤ st.subnets.get ⟨j, hj⟩ := by
    intro i j hi hj hij
    rw [hget i hi, hget j hj]
    have hmul : (i + 1) * blockSize w p ≤ j * blockSize w p :=
      Nat.mul_le_mul_right _ (by omega)
    rw [Nat.succ_mul] at hmul
    omega
  refine ⟨st, hrun, hlen, hmono, ?_⟩
  intro i j hi hj hij x hx
  obtain ⟨⟨hx1, hx2⟩, ⟨hx3, hx4⟩⟩ := hx
  rcases Nat.lt_or_ge i j with hlt | hge
  · have := hmono i j hi hj hlt
    omega
  · have hlt : j < i := by omega
    have := hmono j i hj hi hlt
    omega

/-- Witness for C1 on the two-link `10.0.0.0/30` scenario. -/
theorem c1_subnets_disjoint_increasing_witness :
    (30 < 32 ∧ 167772160 % blockSize 32 30 = 0 ∧
      167772160 + demoLinksRip.length * blockSize 32 30 < 2 ^ 32) ∧
    (∃ st, extract_topology 32 30 demoLinksRip 167772160 = some st ∧
      st.subnets.length = demoLinksRip.length ∧
      (∀ i j (hi : i < st.subnets.length) (hj : j < st.subnets.length),
        i < j →
        st.subnets.get ⟨i, hi⟩ + blockSize 32 30 ≤ st.subnets.get ⟨j, hj⟩) ∧
      (∀ i j (hi : i < st.subnets.length) (hj : j < st.subnets.length),
        i ≠ j → ∀ x, ¬ (inBlock 32 30 (st.subnets.get ⟨i, hi⟩) x ∧
          inBlock 32 30 (st.subnets.get ⟨j, hj⟩) x))) :=
  ⟨⟨by decide, by decide, by decide⟩,
    c1_subnets_disjoint_increasing 32 30 demoLinksRip 167772160 (by decide)
      (by decide) (by decide)⟩

/-! ## Claim C7: endpoint `a` gets the first usable host, `b` the second -/

theorem hostA_of_two_host_bits (w p cur : Nat) (h : p + 2 ≤ w) :
    hostA w p cur = cur + 1 := if_pos h

theorem hostB_of_two_host_bits (w p cur : Nat) (h : p + 2 ≤ w) :
    hostB w p cur = cur + 2 := if_pos h

theorem ripIfacesFrom_mem_a (w p : Nat) :
    ∀ (ls : List Link) (cur : Nat) (k : Nat) (hk : k < ls.length),
      (⟨(ls.get ⟨k, hk⟩).aIface, ipStr w (hostA w p (cur + k * blockSize w p)),
        ipStr w (netmaskVal w p)⟩ : IfaceRip) ∈
        ripIfacesFrom w p ls cur ((ls.get ⟨k, hk⟩).a) := by
  intro ls
  induction ls with
  | nil => intro cur k hk; exact absurd hk (Nat.not_lt_zero k)
  | cons l t ih =>
    intro cur k hk
    cases k with
    | zero =>
      have h0 : cur + 0 * blockSize w p = cur := by simp
      show (⟨l.aIface, ipStr w (hostA w p (cur + 0 * blockSize w p)),
        ipStr w (netmaskVal w p)⟩ : IfaceRip) ∈
        ripIfacesFrom w p (l :: t) cur l.a
      rw [h0]
      show _ ∈ (if l.a = l.a then
          [(⟨l.aIface, ipStr w (hostA w p cur),
            ipStr w (netmaskVal w p)⟩ : IfaceRip)] else []) ++ _ ++ _
      rw [if_pos rfl]
      simp
    | succ j =>
      have hj : j < t.length := Nat.lt_of_succ_lt_succ hk
      have harith : cur + (j + 1) * blockSize w p =
          cur + blockSize w p + j * blockSize w p := by
        rw [Nat.succ_mul]
        omega
      show (⟨(t.get ⟨j, hj⟩).aIface,
        ipStr w (hostA w p (cur + (j + 1) * blockSize w p)),
        ipStr w (netmaskVal w p)⟩ : IfaceRip) ∈
        ripIfacesFrom w p (l :: t) cur ((t.get ⟨j, hj⟩).a)
      rw [harith]
      show _ ∈ _ ++ _ ++ ripIfacesFrom w p t (cur + blockSize w p)
        ((t.get ⟨j, hj⟩).a)
      exact List.mem_append.mpr (Or.inr (ih (cur + blockSize w p) j hj))

theorem ripIfacesFrom_mem_b (w p : Nat) :
    ∀ (ls : List Link) (cur : Nat) (k : Nat) (hk : k < ls.length),
      (⟨(ls.get ⟨k, hk⟩).bIface, ipStr w (hostB w p (cur + k * blockSize w p)),
        ipStr w (netmaskVal w p)⟩ : IfaceRip) ∈
        ripIfacesFrom w p ls cur ((ls.get ⟨k, hk⟩).b) := by
  intro ls
  induction ls with
  | nil => intro cur k hk; exact absurd hk (Nat.not_lt_zero k)
  | cons l t ih =>
    intro cur k hk
    cases k with
    | zero =>
      have h0 : cur + 0 * blockSize w p = cur := by simp
      show (⟨l.bIface, ipStr w (hostB w p (cur + 0 * blockSize w p)),
        ipStr w (netmaskVal w p)⟩ : IfaceRip) ∈
        ripIfacesFrom w p (l :: t) cur l.b
      rw [h0]
      show _ ∈ _ ++ (if l.b = l.b then
          [(⟨l.bIface, ipStr w (hostB w p cur),
            ipStr w (netmaskVal w p)⟩ : IfaceRip)] else []) ++ _
      rw [if_pos rfl]
      simp
    | succ j =>
      have hj : j < t.length := Nat.lt_of_succ_lt_succ hk
      have harith : cur + (j + 1) * blockSize w p =
          cur + blockSize w p + j * blockSize w p := by
        rw [Nat.succ_mul]
        omega
      show (⟨(t.get ⟨j, hj⟩).bIface,
        ipStr w (hostB w p (cur + (j + 1) * blockSize w p)),
        ipStr w (netmaskVal w p)⟩ : IfaceRip) ∈
        ripIfacesFrom w p (l :: t) cur ((t.get ⟨j, hj⟩).b)
      rw [harith]
      show _ ∈ _ ++ _ ++ ripIfacesFrom w p t (cur + blockSize w p)
        ((t.get ⟨j, hj⟩).b)
      exact List.mem_append.mpr (Or.inr (ih (cur + blockSize w p) j hj))

/-- C7: whenever the block has at least two host bits, the `a` endpoint of
the `k`-th link receives the block's lowest usable host address
(base of block `k` plus one) and the `b` endpoint the next one (plus two);
in the concrete `10.0.0.0/30` scenario with links `R1–R2`, `R2–R3` this gives
subnet `10.0.0.0/30` with `R1 = 10.0.0.1`, `R2 = 10.0.0.2` and subnet
`10.0.0.4/30` with `R2 = 10.0.0.5`, `R3 = 10.0.0.6`. -/
theorem c7_host_order :
    (∀ (w p : Nat) (links : List Link) (base : Nat), p + 2 ≤ w →
      base % blockSize w p = 0 →
      base + links.length * blockSize w p < 2 ^ w →
      ∃ st, extract_topology w p links base = some st ∧
        ∀ k (hk : k < links.length),
          (⟨(links.get ⟨k, hk⟩).aIface,
            ipStr w (base + k * blockSize w p + 1),
            ipStr w (netmaskVal w p)⟩ : IfaceRip) ∈
            st.ifaces ((links.get ⟨k, hk⟩).a) ∧
          (⟨(links.get ⟨k, hk⟩).bIface,
            ipStr w (base + k * blockSize w p + 2),
            ipStr w (netmaskVal w p)⟩ : IfaceRip) ∈
            st.ifaces ((links.get ⟨k, hk⟩).b)) ∧
    ((extract_topology 32 30 demoLinksRip 167772160).map
        (fun st =>
          (st.ifaces "R1", st.ifaces "R2", st.ifaces "R3", st.subnets)) =
      some ([⟨"FastEthernet0/0", "10.0.0.1", "255.255.255.252"⟩],
        [⟨"FastEthernet0/0", "10.0.0.2", "255.255.255.252"⟩,
         ⟨"FastEthernet0/1", "10.0.0.5", "255.255.255.252"⟩],
        [⟨"FastEthernet0/1", "10.0.0.6", "255.255.255.252"⟩],
        [167772160, 167772164])) := by
  constructor
  · intro w p links base hp2 halign hspace
    have hp : p < w := by omega
    obtain ⟨st, hrun, _, hifs, _⟩ := ripFold_characterization w p hp links base
      (fun _ => []) (fun _ => []) [] halign hspace
    refine ⟨st, hrun, ?_⟩
    intro k hk
    constructor
    · have hm := ripIfacesFrom_mem_a w p links base k hk
      rw [hostA_of_two_host_bits w p _ hp2] at hm
      rw [hifs]
      exact List.mem_append.mpr (Or.inr hm)
    · have hm := ripIfacesFrom_mem_b w p links base k hk
      rw [hostB_of_two_host_bits w p _ hp2] at hm
      rw [hifs]
      exact List.mem_append.mpr (Or.inr hm)
  · decide

/-- Witness for C7's general part on the demo scenario. -/
theorem c7_host_order_witness :
    (30 + 2 ≤ 32 ∧ 167772160 % blockSize 32 30 = 0 ∧
      167772160 + demoLinksRip.length * blockSize 32 30 < 2 ^ 32) ∧
    (∃ st, extract_topology 32 30 demoLinksRip 167772160 = some st ∧
      ∀ k (hk : k < demoLinksRip.length),
        (⟨(demoLinksRip.get ⟨k, hk⟩).aIface,
          ipStr 32 (167772160 + k * blockSize 32 30 + 1),
          ipStr 32 (netmaskVal 32 30)⟩ : IfaceRip) ∈
          st.ifaces ((demoLinksRip.get ⟨k, hk⟩).a) ∧
        (⟨(demoLinksRip.get ⟨k, hk⟩).bIface,
          ipStr 32 (167772160 + k * blockSize 32 30 + 2),
          ipStr 32 (netmaskVal 32 30)⟩ : IfaceRip) ∈
          st.ifaces ((demoLinksRip.get ⟨k, hk⟩).b)) :=
  ⟨⟨by decide, by decide, by decide⟩,
    c7_host_order.1 32 30 demoLinksRip 167772160 (by decide) (by decide)
      (by decide)⟩

/-! ## Claim C9: RIP network sets are deduplicated and sorted -/

theorem setAdd_nodup (m : String → List String) (k s : String)
    (h : ∀ r, (m r).Nodup) : ∀ r, ((setAdd m k s) r).Nodup := by
  intro r
  unfold setAdd
  split_ifs with h1 h2
  · exact h r
  · refine List.nodup_append.mpr ⟨h r, List.nodup_singleton s, ?_⟩
    intro x hx hxs
    rw [List.mem_singleton] at hxs
    exact h2 (hxs ▸ hx)
  · exact h r

theorem ripStep_nets_nodup (w p : Nat) (st st' : RipState) (l : Link)
    (hstep : ripStep w p st l = some st')
    (h : ∀ r, (st.nets r).Nodup) : ∀ r, (st'.nets r).Nodup := by
  unfold ripStep at hstep
  cases hh : hostsFirstTwo w p st.cur with
  | none => rw [hh] at hstep; cases hstep
  | some ips =>
    rw [hh] at hstep
    by_cases hc : st.cur + blockSize w p < 2 ^ w
    · have hsome : some (⟨ripNextNet w p st.cur,
          updList (updList st.ifaces l.a
            ⟨l.aIface, ipStr w ips.1, ipStr w (netmaskVal w p)⟩) l.b
            ⟨l.bIface, ipStr w ips.2, ipStr w (netmaskVal w p)⟩,
          setAdd (setAdd st.nets l.a (ipStr w st.cur)) l.b (ipStr w st.cur),
          st.subnets ++ [st.cur]⟩ : RipState) = some st' := by
        rw [← hstep]
        show _ = if st.cur + blockSize w p < 2 ^ w then _ else _
        rw [if_pos hc]
      have hst' := Option.some.inj hsome
      rw [← hst']
      exact setAdd_nodup _ l.b (ipStr w st.cur)
        (setAdd_nodup _ l.a (ipStr w st.cur) h)
    · exfalso
      have hnone : (none : Option RipState) = some st' := by
        rw [← hstep]
        show _ = if st.cur + blockSize w p < 2 ^ w then _ else _
        rw [if_neg hc]
      cases hnone

theorem ripFold_nets_nodup (w p : Nat) :
    ∀ (ls : List Link) (ost : Option RipState) (st' : RipState),
      ripFold w p ls ost = some st' →
      (∀ st, ost = some st → ∀ r, (st.nets r).Nodup) →
      ∀ r, (st'.nets r).Nodup := by
  intro ls
  induction ls with
  | nil =>
    intro ost st' hrun h r
    exact h st' hrun r
  | cons l t ih =>
    intro ost st' hrun h r
    have hrun' : ripFold w p t (ost.bind (fun s => ripStep w p s l)) =
        some st' := hrun
    refine ih _ st' hrun' ?_ r
    intro st1 hst1
    cases ost with
    | none => cases hst1
    | some st0 =>
      have hstep : ripStep w p st0 l = some st1 := hst1
      exact ripStep_nets_nodup w p st0 st1 l hstep (h st0 rfl)

/-- `set()` insertion used when abstracting the per-router insertion
sequence: add the string unless already present. -/
def setIns (acc : List String) (s : String) : List String :=
  if s ∈ acc then acc else acc ++ [s]

/-- The per-router network set built from a given insertion sequence
(the order in which `rip_networks[r].add(...)` fires for this router). -/
def collectNets (xs : List String) : List String := xs.foldl setIns []

theorem mem_setIns (acc : List String) (s x : String) :
    x ∈ setIns acc s ↔ x ∈ acc ∨ x = s := by
  unfold setIns
  split_ifs with h1
  · constructor
    · exact fun h => Or.inl h
    · rintro (h | rfl)
      · exact h
      · exact h1
  · simp

theorem setIns_nodup (acc : List String) (s : String) (h : acc.Nodup) :
    (setIns acc s).Nodup := by
  unfold setIns
  split_ifs with h1
  · exact h
  · refine List.nodup_append.mpr ⟨h, List.nodup_singleton s, ?_⟩
    intro x hx hxs
    rw [List.mem_singleton] at hxs
    exact h1 (hxs ▸ hx)

theorem mem_foldl_setIns :
    ∀ (xs : List String) (acc : List String) (x : String),
      x ∈ xs.foldl setIns acc ↔ x ∈ acc ∨ x ∈ xs := by
  intro xs
  induction xs with
  | nil => intro acc x; simp
  | cons h t ih =>
    intro acc x
    show x ∈ t.foldl setIns (setIns acc h) ↔ _
    rw [ih (setIns acc h) x, mem_setIns]
    simp
    tauto

theorem nodup_foldl_setIns :
    ∀ (xs : List String) (acc : List String), acc.Nodup →
      (xs.foldl setIns acc).Nodup := by
  intro xs
  induction xs with
  | nil => intro acc h; exact h
  | cons h t ih =>
    intro acc hacc
    exact ih (setIns acc h) (setIns_nodup acc h hacc)

/-- C9: every router's emitted `rip_networks` list is duplicate-free and
lexicographically sorted, and the emitted value depends only on the set of
inserted network-address strings, not on their insertion order. -/
theorem c9_rip_networks_canonical :
    (∀ (w p : Nat) (links : List Link) (base : Nat) (st : RipState),
      extract_topology w p links base = some st →
      ∀ r, (ripNetworksOut st r).Sorted (fun a b => strLe a b = true) ∧
        (ripNetworksOut st r).Nodup) ∧
    (∀ xs ys : List String, (∀ s, s ∈ xs ↔ s ∈ ys) →
      sortNames (collectNets xs) = sortNames (collectNets ys)) := by
  constructor
  · intro w p links base st hrun r
    refine ⟨sortNames_sorted _, ?_⟩
    have hn : (st.nets r).Nodup := by
      refine ripFold_nets_nodup w p links _ st hrun ?_ r
      intro st0 h0 r0
      have : st0 = ⟨base, fun _ => [], fun _ => [], []⟩ :=
        (Option.some.inj h0).symm
      rw [this]
      exact List.nodup_nil
    exact ((sortNames_perm (st.nets r)).nodup_iff).mpr hn
  · intro xs ys hmem
    refine sortNames_eq_of_perm _ _ ?_
    show (xs.foldl setIns []).Perm (ys.foldl setIns [])
    rw [List.perm_ext_iff_of_nodup (nodup_foldl_setIns xs [] List.nodup_nil)
      (nodup_foldl_setIns ys [] List.nodup_nil)]
    intro a
    rw [mem_foldl_setIns xs [] a, mem_foldl_setIns ys [] a]
    simp
    exact hmem a

/-- Witness for C9: a run of the demo scenario, and two insertion orders of
the same network set. -/
theorem c9_rip_networks_canonical_witness :
    (∀ s, s ∈ ["10.0.0.4", "10.0.0.0", "10.0.0.4"] ↔
      s ∈ ["10.0.0.0", "10.0.0.4"]) ∧
    sortNames (collectNets ["10.0.0.4", "10.0.0.0", "10.0.0.4"]) =
      sortNames (collectNets ["10.0.0.0", "10.0.0.4"]) :=
  ⟨by intro s; simp [List.mem_cons]; tauto,
    c9_rip_networks_canonical.2 ["10.0.0.4", "10.0.0.0", "10.0.0.4"]
      ["10.0.0.0", "10.0.0.4"] (by intro s; simp [List.mem_cons]; tauto)⟩

/-! ## The OSPF sequential-subnet allocator (claim C5)

`generate_ipv6_addresses` of `codes_ospf/ospfv3_gen.py` lines 17-56: carve
sequential /64 subnets out of the base network, assign `subnet + 1` to
endpoint `a` and `subnet + 2` to endpoint `b`, and on `StopIteration` report
the failing link index and stop, keeping the assignments already made. -/

/-- Dict assignment `ipv6_assignments[(router, iface)] = value`
(later writes win). -/
def updAssign (m : String × String → Option (String × Nat))
    (k : String × String) (v : String × Nat) :
    String × String → Option (String × Nat) :=
  fun q => if q = k then some v else m q

/-- The `for i, link in enumerate(links)` loop: walks the links and the
remaining subnet sequence together; returns the assignment dict and
`some i` when the sequence ran out at link index `i` (the printed
"Ran out of IPv6 addresses at link i" report), `none` otherwise. -/
def genIpv6Aux :
    List Link → List Nat → Nat → (String × String → Option (String × Nat)) →
    ((String × String → Option (String × Nat)) × Option Nat)
  | [], _, _, m => (m, none)
  | _ :: _, [], i, m => (m, some i)
  | l :: ls, sb :: ss, i, m =>
    genIpv6Aux ls ss (i + 1)
      (updAssign (updAssign m (l.a, l.aIface) (ipv6Str (sb + 1), 64))
        (l.b, l.bIface) (ipv6Str (sb + 2), 64))

/-- `base_network.subnets(new_prefix=64)` for a base of prefix length
`p ≤ 64`: the `2 ^ (64 - p)` consecutive /64 blocks of the base network, in
increasing order. -/
def subnetsOf (base p : Nat) : List Nat :=
  (List.range (2 ^ (64 - p))).map (fun k => base + k * 2 ^ 64)

/-- `generate_ipv6_addresses`, for a topology whose `ipv6_base` parses
(non-strictly) to the given base address and prefix length. -/
def generate_ipv6_addresses (links : List Link) (base p : Nat) :
    ((String × String → Option (String × Nat)) × Option Nat) :=
  genIpv6Aux links (subnetsOf (hostBitsCleared 128 p base) p) 0 (fun _ => none)

theorem genIpv6Aux_snd_exhaust :
    ∀ (subs : List Nat) (links : List Link) (i : Nat)
      (m : String × String → Option (String × Nat)),
      subs.length < links.length →
      (genIpv6Aux links subs i m).2 = some (i + subs.length) := by
  intro subs
  induction subs with
  | nil =>
    intro links i m h
    cases links with
    | nil => simp at h
    | cons l ls =>
      show (m, some i).2 = some (i + 0)
      simp
  | cons sb ss ih =>
    intro links i m h
    cases links with
    | nil => simp at h
    | cons l ls =>
      show (genIpv6Aux ls ss (i + 1) _).2 = _
      rw [ih ls (i + 1) _ (by simp at h; omega)]
      congr 1
      simp
      omega

theorem genIpv6Aux_fst_take :
    ∀ (subs : List Nat) (links : List Link) (i : Nat)
      (m : String × String → Option (String × Nat)),
      (genIpv6Aux links subs i m).1 =
        (genIpv6Aux (links.take subs.length) subs i m).1 := by
  intro subs
  induction subs with
  | nil =>
    intro links i m
    cases links with
    | nil => rfl
    | cons l ls => rfl
  | cons sb ss ih =>
    intro links i m
    cases links with
    | nil => rfl
    | cons l ls =>
      show (genIpv6Aux ls ss (i + 1) _).1 =
        (genIpv6Aux (ls.take ss.length) ss (i + 1) _).1
      exact ih ls (i + 1) _

theorem genIpv6Aux_assigned_keys :
    ∀ (subs : List Nat) (links : List Link) (i : Nat)
      (m : String × String → Option (String × Nat)) (k : String × String),
      (genIpv6Aux links subs i m).1 k ≠ none →
      m k ≠ none ∨ ∃ j, ∃ hj : j < links.length, j < subs.length ∧
        (k = ((links.get ⟨j, hj⟩).a, (links.get ⟨j, hj⟩).aIface) ∨
         k = ((links.get ⟨j, hj⟩).b, (links.get ⟨j, hj⟩).bIface)) := by
  intro subs
  induction subs with
  | nil =>
    intro links i m k h
    cases links with
    | nil => exact Or.inl h
    | cons l ls => exact Or.inl h
  | cons sb ss ih =>
    intro links i m k h
    cases links with
    | nil => exact Or.inl h
    | cons l ls =>
      have h' : (genIpv6Aux ls ss (i + 1)
          (updAssign (updAssign m (l.a, l.aIface) (ipv6Str (sb + 1), 64))
            (l.b, l.bIface) (ipv6Str (sb + 2), 64))).1 k ≠ none := h
      rcases ih ls (i + 1) _ k h' with hm | ⟨j, hj, hjs, hk⟩
      · by_cases hb : k = (l.b, l.bIface)
        · refine Or.inr ⟨0, by simp, by simp, Or.inr ?_⟩
          simpa using hb
        · by_cases ha : k = (l.a, l.aIface)
          · refine Or.inr ⟨0, by simp, by simp, Or.inl ?_⟩
            simpa using ha
          · left
            have heq : updAssign (updAssign m (l.a, l.aIface)
                (ipv6Str (sb + 1), 64)) (l.b, l.bIface)
                (ipv6Str (sb + 2), 64) k = m k := by
              unfold updAssign
              rw [if_neg hb, if_neg ha]
            rw [heq] at hm
            exact hm
      · refine Or.inr ⟨j + 1, by simpa using Nat.succ_lt_succ hj,
          by simpa using Nat.succ_lt_succ hjs, ?_⟩
        exact hk

/-- Three-link demo topology (a triangle `R1–R2–R3–R1`). -/
def demoLinksOspf : List Link :=
  [⟨"R1", "FastEthernet0/0", "R2", "FastEthernet0/0"⟩,
   ⟨"R2", "FastEthernet0/1", "R3", "FastEthernet0/1"⟩,
   ⟨"R3", "GigabitEthernet2/0", "R1", "GigabitEthernet2/1"⟩]

/-- C5: if the subnet sequence is exhausted at link index `i` of an `N`-link
list (`i` = number of available subnets `< N`), the loop reports exhaustion
at exactly index `i`, the returned map equals the map produced by the first
`i` links alone (already-produced results are retained), and every assigned
key belongs to one of the links `0..i-1`; concretely, on a three-link
topology with a `/63` base (two /64 subnets) the first two links get
addresses, the third link's endpoints stay unassigned, and exhaustion is
reported at link index 2. -/
theorem c5_partial_allocation :
    (∀ (links : List Link) (subs : List Nat), subs.length < links.length →
      (genIpv6Aux links subs 0 (fun _ => none)).2 = some subs.length ∧
      (genIpv6Aux links subs 0 (fun _ => none)).1 =
        (genIpv6Aux (links.take subs.length) subs 0 (fun _ => none)).1 ∧
      (∀ k, (genIpv6Aux links subs 0 (fun _ => none)).1 k ≠ none →
        ∃ j, ∃ hj : j < links.length, j < subs.length ∧
          (k = ((links.get ⟨j, hj⟩).a, (links.get ⟨j, hj⟩).aIface) ∨
           k = ((links.get ⟨j, hj⟩).b, (links.get ⟨j, hj⟩).bIface)))) ∧
    ((generate_ipv6_addresses demoLinksOspf 0x20010db8000000000000000000000000
        63).2 = some 2 ∧
      (generate_ipv6_addresses demoLinksOspf 0x20010db8000000000000000000000000
        63).1 ("R1", "FastEthernet0/0") = some ("2001:db8::1", 64) ∧
      (generate_ipv6_addresses demoLinksOspf 0x20010db8000000000000000000000000
        63).1 ("R2", "FastEthernet0/0") = some ("2001:db8::2", 64) ∧
      (generate_ipv6_addresses demoLinksOspf 0x20010db8000000000000000000000000
        63).1 ("R2", "FastEthernet0/1") = some ("2001:db8:0:1::1", 64) ∧
      (generate_ipv6_addresses demoLinksOspf 0x20010db8000000000000000000000000
        63).1 ("R3", "FastEthernet0/1") = some ("2001:db8:0:1::2", 64) ∧
      (generate_ipv6_addresses demoLinksOspf 0x20010db8000000000000000000000000
        63).1 ("R3", "GigabitEthernet2/0") = none ∧
      (generate_ipv6_addresses demoLinksOspf 0x20010db8000000000000000000000000
        63).1 ("R1", "GigabitEthernet2/1") = none) := by
  constructor
  · intro links subs hlt
    refine ⟨by rw [genIpv6Aux_snd_exhaust subs links 0 _ hlt]; congr 1; omega,
      genIpv6Aux_fst_take subs links 0 _, ?_⟩
    intro k hk
    rcases genIpv6Aux_assigned_keys subs links 0 _ k hk with hm | h
    · exact absurd rfl hm
    · exact h
  · refine ⟨by decide, by decide, by decide, by decide, by decide, by decide,
      by decide⟩

/-- Witness for C5's general part: three links, two subnets. -/
theorem c5_partial_allocation_witness :
    ((subnetsOf 0x20010db8000000000000000000000000 63).length <
      demoLinksOspf.length) ∧
    ((genIpv6Aux demoLinksOspf
        (subnetsOf 0x20010db8000000000000000000000000 63) 0
        (fun _ => none)).2 =
      some (subnetsOf 0x20010db8000000000000000000000000 63).length ∧
    (genIpv6Aux demoLinksOspf
        (subnetsOf 0x20010db8000000000000000000000000 63) 0
        (fun _ => none)).1 =
      (genIpv6Aux (demoLinksOspf.take
          (subnetsOf 0x20010db8000000000000000000000000 63).length)
        (subnetsOf 0x20010db8000000000000000000000000 63) 0
        (fun _ => none)).1 ∧
    (∀ k, (genIpv6Aux demoLinksOspf
        (subnetsOf 0x20010db8000000000000000000000000 63) 0
        (fun _ => none)).1 k ≠ none →
      ∃ j, ∃ hj : j < demoLinksOspf.length,
        j < (subnetsOf 0x20010db8000000000000000000000000 63).length ∧
        (k = ((demoLinksOspf.get ⟨j, hj⟩).a,
            (demoLinksOspf.get ⟨j, hj⟩).aIface) ∨
         k = ((demoLinksOspf.get ⟨j, hj⟩).b,
            (demoLinksOspf.get ⟨j, hj⟩).bIface)))) :=
  ⟨by decide,
    c5_partial_allocation.1 demoLinksOspf
      (subnetsOf 0x20010db8000000000000000000000000 63) (by decide)⟩

/-! ## The BGP topology extractor (claims C2, C6, C10)

`extract_topology_bgp` of `codes_bgp/get_topology_bgp.py`: IPv6-style
addressing (lines 87-115), ASN allocation (lines 121-123, embedded above as
`router_to_asn`), and neighbor resolution (lines 126-144).

The `link_net` field is the string `str(current_net.network_address)`; it is
kept here as the address integer, because within one address family the
string rendering is injective, so the string comparison
`iface_a["link_net"] == iface_b["link_net"]` coincides with equality of the
integers.  The `ip` field is the string `str(IPv6Address(...))` — the
`IPv6Address` class is hard-coded in the source even when the base network
is IPv4, so the rendering is always `ipv6Str`. -/

/-- One entry of `interfaces_cfg[router]` in the BGP variant. -/
structure IfaceBgp where
  name : String
  ip : String
  prefixLen : Nat
  linkNet : Nat
deriving DecidableEq

/-- The `a`-side interface record of a link on the block based at `net`:
`ip_a = IPv6Address(int(current_net.network_address) + 1)`. -/
def mkIfA (p : Nat) (l : Link) (net : Nat) : IfaceBgp :=
  ⟨l.aIface, ipv6Str (net + 1), p, net⟩

/-- The `b`-side interface record:
`ip_b = IPv6Address(int(current_net.network_address) + 2)`. -/
def mkIfB (p : Nat) (l : Link) (net : Nat) : IfaceBgp :=
  ⟨l.bIface, ipv6Str (net + 2), p, net⟩

/-- Allocator state of the BGP addressing loop, with the trace of consumed
block bases. -/
structure BgpState where
  cur : Nat
  ifaces : String → List IfaceBgp
  subnets : List Nat

/-- Body of the addressing loop.  The `IPv6Address` constructor bound is
`2 ^ 128` (the class is hard-coded); the advance `ipaddress.ip_address(...)`
is bounded by the family space `2 ^ w`.  (For an IPv4 run Python would
promote an overflowing advance to IPv6 instead of raising; every claim here
operates strictly inside the family space, where that corner is
unreachable.) -/
def bgpStep (w p : Nat) (st : BgpState) (l : Link) : Option BgpState :=
  if st.cur + 1 < 2 ^ 128 ∧ st.cur + 2 < 2 ^ 128 then
    let if1 := updList st.ifaces l.a (mkIfA p l st.cur)
    let if2 := updList if1 l.b (mkIfB p l st.cur)
    if st.cur + blockSize w p < 2 ^ w then
      some ⟨bgpNextNet w p st.cur, if2, st.subnets ++ [st.cur]⟩
    else none
  else none

/-- The addressing loop as a fold. -/
def bgpFold (w p : Nat) (ls : List Link) (ost : Option BgpState) :
    Option BgpState :=
  ls.foldl (fun acc l => acc.bind (fun st => bgpStep w p st l)) ost

/-- Addressing part of `extract_topology_bgp`, from the strictly parsed
(and hence aligned) base network. -/
def bgpAlloc (w p : Nat) (links : List Link) (base : Nat) : Option BgpState :=
  bgpFold w p links (some ⟨base, fun _ => [], []⟩)

/-- Interface records contributed to router `r` by links `ls` starting at
block base `cur`. -/
def bgpIfacesFrom (w p : Nat) : List Link → Nat → String → List IfaceBgp
  | [], _, _ => []
  | l :: ls, cur, r =>
    (if r = l.a then [mkIfA p l cur] else []) ++
    (if r = l.b then [mkIfB p l cur] else []) ++
    bgpIfacesFrom w p ls (cur + blockSize w p) r

theorem two_le_blockSize (w p : Nat) (hp : p < w) : 2 ≤ blockSize w p := by
  have : 2 ^ 1 ≤ 2 ^ (w - p) := Nat.pow_le_pow_right (by decide) (by omega)
  simpa using this

theorem bgpNextNet_of_aligned (w p cur : Nat)
    (h : cur % blockSize w p = 0) :
    bgpNextNet w p cur = cur + blockSize w p := by
  unfold bgpNextNet
  rw [← supernetOfAddr_eq_hostBitsCleared]
  exact ripNextNet_of_aligned w p cur h

/-- Master characterization of the BGP addressing loop, analogous to the RIP
one. -/
theorem bgpFold_characterization (w p : Nat) (hp : p < w) (hw : w ≤ 128) :
    ∀ (ls : List Link) (cur : Nat) (ifs : String → List IfaceBgp)
      (tr : List Nat),
      cur % blockSize w p = 0 →
      cur + ls.length * blockSize w p < 2 ^ w →
      ∃ st : BgpState,
        bgpFold w p ls (some ⟨cur, ifs, tr⟩) = some st ∧
        st.cur = cur + ls.length * blockSize w p ∧
        (∀ r, st.ifaces r = ifs r ++ bgpIfacesFrom w p ls cur r) ∧
        st.subnets = tr ++ subsFrom w p ls cur := by
  intro ls
  induction ls with
  | nil =>
    intro cur ifs tr _ _
    exact ⟨⟨cur, ifs, tr⟩, rfl, by simp, fun r => by
      show ifs r = ifs r ++ bgpIfacesFrom w p [] cur r
      simp [bgpIfacesFrom], by
      show tr = tr ++ subsFrom w p [] cur
      simp [subsFrom]⟩
  | cons l t ih =>
    intro cur ifs tr halign hspace
    have hlen : (l :: t).length * blockSize w p =
        t.length * blockSize w p + blockSize w p := by
      rw [List.length_cons, Nat.succ_mul]
    have hbs2 : 2 ≤ blockSize w p := two_le_blockSize w p hp
    have hcheck : cur + blockSize w p < 2 ^ w := by omega
    have h128 : (2 : Nat) ^ w ≤ 2 ^ 128 := Nat.pow_le_pow_right (by decide) hw
    have hip : cur + 1 < 2 ^ 128 ∧ cur + 2 < 2 ^ 128 := by
      constructor <;> omega
    have halign' : (cur + blockSize w p) % blockSize w p = 0 := by
      rw [Nat.add_mod_right]
      exact halign
    have hspace' : cur + blockSize w p + t.length * blockSize w p < 2 ^ w := by
      omega
    have hstep : bgpStep w p ⟨cur, ifs, tr⟩ l =
        some ⟨cur + blockSize w p,
          updList (updList ifs l.a (mkIfA p l cur)) l.b (mkIfB p l cur),
          tr ++ [cur]⟩ := by
      simp [bgpStep, hcheck, bgpNextNet_of_aligned w p cur halign]
      omega
    obtain ⟨st, hrun, hcur, hifs, hsubs⟩ := ih (cur + blockSize w p)
      (updList (updList ifs l.a (mkIfA p l cur)) l.b (mkIfB p l cur))
      (tr ++ [cur]) halign' hspace'
    refine ⟨st, ?_, ?_, ?_, ?_⟩
    · show bgpFold w p t ((some (⟨cur, ifs, tr⟩ : BgpState)).bind
        (fun s => bgpStep w p s l)) = some st
      have hbind : (some (⟨cur, ifs, tr⟩ : BgpState)).bind
          (fun s => bgpStep w p s l) = bgpStep w p ⟨cur, ifs, tr⟩ l := rfl
      rw [hbind, hstep]
      exact hrun
    · rw [hcur, hlen]
      omega
    · intro r
      rw [hifs r, updList_updList]
      have hcons : bgpIfacesFrom w p (l :: t) cur r =
          (if r = l.a then [mkIfA p l cur] else []) ++
          (if r = l.b then [mkIfB p l cur] else []) ++
          bgpIfacesFrom w p t (cur + blockSize w p) r := rfl
      rw [hcons]
      simp [List.append_assoc]
    · rw [hsubs]
      have hcons : subsFrom w p (l :: t) cur =
          cur :: subsFrom w p t (cur + blockSize w p) := rfl
      rw [hcons]
      simp

theorem bgpIfacesFrom_mem_a (w p : Nat) :
    ∀ (ls : List Link) (cur : Nat) (k : Nat) (hk : k < ls.length),
      mkIfA p (ls.get ⟨k, hk⟩) (cur + k * blockSize w p) ∈
        bgpIfacesFrom w p ls cur ((ls.get ⟨k, hk⟩).a) := by
  intro ls
  induction ls with
  | nil => intro cur k hk; exact absurd hk (Nat.not_lt_zero k)
  | cons l t ih =>
    intro cur k hk
    cases k with
    | zero =>
      have h0 : cur + 0 * blockSize w p = cur := by simp
      show mkIfA p l (cur + 0 * blockSize w p) ∈
        bgpIfacesFrom w p (l :: t) cur l.a
      rw [h0]
      show _ ∈ (if l.a = l.a then [mkIfA p l cur] else []) ++ _ ++ _
      rw [if_pos rfl]
      simp
    | succ j =>
      have hj : j < t.length := Nat.lt_of_succ_lt_succ hk
      have harith : cur + (j + 1) * blockSize w p =
          cur + blockSize w p + j * blockSize w p := by
        rw [Nat.succ_mul]
        omega
      show mkIfA p (t.get ⟨j, hj⟩) (cur + (j + 1) * blockSize w p) ∈
        bgpIfacesFrom w p (l :: t) cur ((t.get ⟨j, hj⟩).a)
      rw [harith]
      show _ ∈ _ ++ _ ++ bgpIfacesFrom w p t (cur + blockSize w p)
        ((t.get ⟨j, hj⟩).a)
      exact List.mem_append.mpr (Or.inr (ih (cur + blockSize w p) j hj))

theorem bgpIfacesFrom_mem_b (w p : Nat) :
    ∀ (ls : List Link) (cur : Nat) (k : Nat) (hk : k < ls.length),
      mkIfB p (ls.get ⟨k, hk⟩) (cur + k * blockSize w p) ∈
        bgpIfacesFrom w p ls cur ((ls.get ⟨k, hk⟩).b) := by
  intro ls
  induction ls with
  | nil => intro cur k hk; exact absurd hk (Nat.not_lt_zero k)
  | cons l t ih =>
    intro cur k hk
    cases k with
    | zero =>
      have h0 : cur + 0 * blockSize w p = cur := by simp
      show mkIfB p l (cur + 0 * blockSize w p) ∈
        bgpIfacesFrom w p (l :: t) cur l.b
      rw [h0]
      show _ ∈ _ ++ (if l.b = l.b then [mkIfB p l cur] else []) ++ _
      rw [if_pos rfl]
      simp
    | succ j =>
      have hj : j < t.length := Nat.lt_of_succ_lt_succ hk
      have harith : cur + (j + 1) * blockSize w p =
          cur + blockSize w p + j * blockSize w p := by
        rw [Nat.succ_mul]
        omega
      show mkIfB p (t.get ⟨j, hj⟩) (cur + (j + 1) * blockSize w p) ∈
        bgpIfacesFrom w p (l :: t) cur ((t.get ⟨j, hj⟩).b)
      rw [harith]
      show _ ∈ _ ++ _ ++ bgpIfacesFrom w p t (cur + blockSize w p)
        ((t.get ⟨j, hj⟩).b)
      exact List.mem_append.mpr (Or.inr (ih (cur + blockSize w p) j hj))

/-! ## Claim C10: the BGP allocator is total and never reports exhaustion -/

/-- C10: in the 128-bit space, for every finite link list whose advanced
blocks stay inside the space, the BGP addressing loop succeeds on every link
(there is no exhaustion check, report, or partial-result path: the result is
always a full assignment), and the `k`-th link is placed on the subnet based
at `base + k * 2 ^ (128 - p)` at the same prefix length — even when `k > 0`
puts that subnet entirely outside the configured base network — with the
endpoints at offsets `+1` and `+2` of that subnet base. -/
theorem c10_bgp_total (p : Nat) (links : List Link) (base : Nat)
    (hp : p < 128) (halign : base % blockSize 128 p = 0)
    (hspace : base + links.length * blockSize 128 p < 2 ^ 128) :
    ∃ st, bgpAlloc 128 p links base = some st ∧
      st.subnets.length = links.length ∧
      (∀ k (hk : k < st.subnets.length),
        st.subnets.get ⟨k, hk⟩ = base + k * blockSize 128 p) ∧
      (∀ k (hk : k < links.length),
        mkIfA p (links.get ⟨k, hk⟩) (base + k * blockSize 128 p) ∈
          st.ifaces ((links.get ⟨k, hk⟩).a) ∧
        mkIfB p (links.get ⟨k, hk⟩) (base + k * blockSize 128 p) ∈
          st.ifaces ((links.get ⟨k, hk⟩).b)) := by
  obtain ⟨st, hrun, _, hifs, hsubs⟩ := bgpFold_characterization 128 p hp
    (by omega) links base (fun _ => []) [] halign hspace
  have hsubs2 : st.subnets =
      (List.range links.length).map (fun k => base + k * blockSize 128 p) := by
    rw [hsubs, subsFrom_eq_map_range]
    rfl
  have hlen : st.subnets.length = links.length := by
    rw [hsubs2, List.length_map, List.length_range]
  refine ⟨st, hrun, hlen, ?_, ?_⟩
  · intro k hk
    have hk2 : k < links.length := by rw [← hlen]; exact hk
    rw [List.get_eq_getElem, List.getElem_of_eq hsubs2 hk]
    rw [List.getElem_map, List.getElem_range]
  · intro k hk
    constructor
    · rw [hifs]
      exact List.mem_append.mpr (Or.inr (bgpIfacesFrom_mem_a 128 p links base k hk))
    · rw [hifs]
      exact List.mem_append.mpr (Or.inr (bgpIfacesFrom_mem_b 128 p links base k hk))

/-- Witness for C10: two links on a `/64` base — the second subnet lies
entirely outside the configured `/64`. -/
theorem c10_bgp_total_witness :
    (64 < 128 ∧
      42540488161975842760550356425300246528 % blockSize 128 64 = 0 ∧
      42540488161975842760550356425300246528 +
        demoLinksRip.length * blockSize 128 64 < 2 ^ 128) ∧
    (∃ st, bgpAlloc 128 64 demoLinksRip
        42540488161975842760550356425300246528 = some st ∧
      st.subnets.length = demoLinksRip.length ∧
      (∀ k (hk : k < st.subnets.length),
        st.subnets.get ⟨k, hk⟩ =
          42540488161975842760550356425300246528 + k * blockSize 128 64) ∧
      (∀ k (hk : k < demoLinksRip.length),
        mkIfA 64 (demoLinksRip.get ⟨k, hk⟩)
            (42540488161975842760550356425300246528 + k * blockSize 128 64) ∈
          st.ifaces ((demoLinksRip.get ⟨k, hk⟩).a) ∧
        mkIfB 64 (demoLinksRip.get ⟨k, hk⟩)
            (42540488161975842760550356425300246528 + k * blockSize 128 64) ∈
          st.ifaces ((demoLinksRip.get ⟨k, hk⟩).b))) :=
  ⟨⟨by decide, by decide, by decide⟩,
    c10_bgp_total 64 demoLinksRip 42540488161975842760550356425300246528
      (by decide) (by decide) (by decide)⟩

/-! ## Neighbor resolution (claims C2, C6)

`codes_bgp/get_topology_bgp.py` lines 126-144: for each link `(a, b)`, scan
all of `a`'s interfaces; for each, scan `b`'s interfaces for one with the
same `link_net` and, at the first match (`break` leaves only the inner
loop), append a record to `a`'s neighbor list naming `b` (with `b`'s ASN and
the matched `b`-interface address) and the symmetric record to `b`'s
list. -/

/-- One entry of `router_to_neighbors[router]`. -/
structure NeighborRec where
  name : String
  asn : Nat
  ip : String
deriving DecidableEq

/-- The matched interface pairs produced for one link: for each interface of
`a`, the first interface of `b` with the same `link_net`, if any. -/
def neighborPairs (ca cb : List IfaceBgp) : List (IfaceBgp × IfaceBgp) :=
  ca.filterMap (fun fa =>
    (cb.find? (fun fb => fb.linkNet == fa.linkNet)).map (fun fb => (fa, fb)))

/-- Processing of one link by the neighbor loop; `none` models the
`KeyError` raised by `router_to_asn[...]` on an unknown router name. -/
def nbStep (cfg : String → List IfaceBgp) (asn : String → Option Nat)
    (m : String → List NeighborRec) (l : Link) :
    Option (String → List NeighborRec) :=
  (neighborPairs (cfg l.a) (cfg l.b)).foldl
    (fun om pr => om.bind (fun m2 =>
      match asn l.b, asn l.a with
      | some ab, some aa =>
        some (updList (updList m2 l.a ⟨l.b, ab, pr.2.ip⟩) l.b
          ⟨l.a, aa, pr.1.ip⟩)
      | _, _ => none))
    (some m)

/-- The whole neighbor loop over the link list. -/
def bgpNeighbors (links : List Link) (cfg : String → List IfaceBgp)
    (asn : String → Option Nat) : Option (String → List NeighborRec) :=
  links.foldl (fun om l => om.bind (fun m => nbStep cfg asn m l))
    (some (fun _ => []))

/-- `extract_topology_bgp`: addressing followed by neighbor resolution (the
ASN map is `router_to_asn`). -/
def extract_topology_bgp (w p : Nat) (links : List Link)
    (routers : List String) (base asnBase : Nat) :
    Option (BgpState × (String → List NeighborRec)) :=
  (bgpAlloc w p links base).bind (fun st =>
    (bgpNeighbors links st.ifaces (router_to_asn routers asnBase)).map
      (fun nb => (st, nb)))

/-! ## Claim C6: the BGP scenario on base `10.0.0.0/30` -/

/-- C6 counterexample: running the BGP extraction on routers `R1,R2,R3`,
links `R1–R2`, `R2–R3`, base `10.0.0.0/30`, base ASN `65000`, the record
`(R2, 65002, "10.0.0.2")` claimed for `R1`'s neighbor list is not produced:
the extractor constructs `IPv6Address` objects unconditionally, so the
stored address string is not `"10.0.0.2"`. -/
theorem c6_counterexample :
    (extract_topology_bgp 32 30 demoLinksRip ["R1", "R2", "R3"] 167772160
        65000).map (fun out =>
          decide ((⟨"R2", 65002, "10.0.0.2"⟩ : NeighborRec) ∈ out.2 "R1")) =
      some false ∧
    (extract_topology_bgp 32 30 demoLinksRip ["R1", "R2", "R3"] 167772160
        65000).map (fun out => out.2 "R1") ≠
      some [⟨"R2", 65002, "10.0.0.2"⟩] := by
  refine ⟨by decide, by decide⟩

/-- C6 amended: in that scenario the ASNs are `65001, 65002, 65003` for
`R1, R2, R3`, and `R1`'s neighbor list holds exactly one record, naming `R2`
with ASN `65002` and address string `"::a00:2"` (the integer `10.0.0.2`
rendered as an IPv6 address, since the extractor hard-codes
`IPv6Address`). -/
theorem c6_scenario_amended :
    router_to_asn ["R1", "R2", "R3"] 65000 "R1" = some 65001 ∧
    router_to_asn ["R1", "R2", "R3"] 65000 "R2" = some 65002 ∧
    router_to_asn ["R1", "R2", "R3"] 65000 "R3" = some 65003 ∧
    (extract_topology_bgp 32 30 demoLinksRip ["R1", "R2", "R3"] 167772160
        65000).map (fun out => out.2 "R1") =
      some [⟨"R2", 65002, "::a00:2"⟩] := by
  refine ⟨by decide, by decide, by decide, by decide⟩

/-! ## Claim C2: neighbor records come in exactly one symmetric pair per link -/

/-- Two parallel links between the same pair of routers. -/
def parallelLinks : List Link :=
  [⟨"A", "f0", "B", "f0"⟩, ⟨"A", "f1", "B", "f1"⟩]

/-- C2 counterexample: with two parallel links `A–B`, the neighbor loop's
inner `break` leaves the outer interface scan running, so every link
produces a pair of records per *matching interface pair*, not per link:
each router ends with four records instead of two — duplicates are
produced. -/
theorem c2_counterexample :
    (extract_topology_bgp 128 126 parallelLinks ["A", "B"] 0 65000).map
        (fun out => ((out.2 "A").length, (out.2 "B").length)) =
      some (4, 4) ∧
    (extract_topology_bgp 128 126 parallelLinks ["A", "B"] 0 65000).map
        (fun out => (out.2 "A").length) ≠ some 2 := by
  refine ⟨by decide, by decide⟩

/-- Two links joining the same unordered router pair. -/
def sameEnds (l1 l2 : Link) : Prop :=
  (l1.a = l2.a ∧ l1.b = l2.b) ∨ (l1.a = l2.b ∧ l1.b = l2.a)

instance (l1 l2 : Link) : Decidable (sameEnds l1 l2) := by
  unfold sameEnds
  infer_instance

theorem sameEnds_symm {l1 l2 : Link} (h : sameEnds l1 l2) : sameEnds l2 l1 := by
  rcases h with ⟨h1, h2⟩ | ⟨h1, h2⟩
  · exact Or.inl ⟨h1.symm, h2.symm⟩
  · exact Or.inr ⟨h2.symm, h1.symm⟩

theorem sameEnds_of_shared (l1 l2 : Link) (h2 : l2.a ≠ l2.b)
    (ha : l2.a = l1.a ∨ l2.a = l1.b) (hb : l2.b = l1.a ∨ l2.b = l1.b) :
    sameEnds l1 l2 := by
  rcases ha with ha | ha <;> rcases hb with hb | hb
  · exact absurd (ha.trans hb.symm) h2
  · exact Or.inl ⟨ha.symm, hb.symm⟩
  · exact Or.inr ⟨hb.symm, ha.symm⟩
  · exact absurd (ha.trans hb.symm) h2

theorem mem_bgpIfacesFrom (w p : Nat) :
    ∀ (ls : List Link) (cur : Nat) (r : String) (fa : IfaceBgp),
      fa ∈ bgpIfacesFrom w p ls cur r ↔
        ∃ k, ∃ hk : k < ls.length,
          ((r = (ls.get ⟨k, hk⟩).a ∧
            fa = mkIfA p (ls.get ⟨k, hk⟩) (cur + k * blockSize w p)) ∨
           (r = (ls.get ⟨k, hk⟩).b ∧
            fa = mkIfB p (ls.get ⟨k, hk⟩) (cur + k * blockSize w p))) := by
  intro ls
  induction ls with
  | nil =>
    intro cur r fa
    constructor
    · intro h
      exact absurd h (List.not_mem_nil fa)
    · rintro ⟨k, hk, _⟩
      exact absurd hk (Nat.not_lt_zero k)
  | cons l t ih =>
    intro cur r fa
    constructor
    · intro h
      have h' : fa ∈ (if r = l.a then [mkIfA p l cur] else []) ++
          (if r = l.b then [mkIfB p l cur] else []) ++
          bgpIfacesFrom w p t (cur + blockSize w p) r := h
      rcases List.mem_append.mp h' with h1 | h1
      · rcases List.mem_append.mp h1 with h2 | h2
        · by_cases hra : r = l.a
          · rw [if_pos hra] at h2
            have hfa := List.mem_singleton.mp h2
            refine ⟨0, Nat.succ_pos _, Or.inl ⟨hra, ?_⟩⟩
            rw [hfa]
            congr 1
            simp
          · rw [if_neg hra] at h2
            exact absurd h2 (List.not_mem_nil fa)
        · by_cases hrb : r = l.b
          · rw [if_pos hrb] at h2
            have hfa := List.mem_singleton.mp h2
            refine ⟨0, Nat.succ_pos _, Or.inr ⟨hrb, ?_⟩⟩
            rw [hfa]
            congr 1
            simp
          · rw [if_neg hrb] at h2
            exact absurd h2 (List.not_mem_nil fa)
      · obtain ⟨k, hk, hcase⟩ := (ih (cur + blockSize w p) r fa).mp h1
        refine ⟨k + 1, Nat.succ_lt_succ hk, ?_⟩
        have harith : cur + blockSize w p + k * blockSize w p =
            cur + (k + 1) * blockSize w p := by
          rw [Nat.succ_mul]
          omega
        rw [harith] at hcase
        exact hcase
    · rintro ⟨k, hk, hcase⟩
      cases k with
      | zero =>
        have h0 : cur + 0 * blockSize w p = cur := by simp
        show fa ∈ (if r = l.a then [mkIfA p l cur] else []) ++
          (if r = l.b then [mkIfB p l cur] else []) ++
          bgpIfacesFrom w p t (cur + blockSize w p) r
        rcases hcase with ⟨hra, hfa⟩ | ⟨hrb, hfa⟩
        · rw [h0] at hfa
          have hra2 : r = l.a := hra
          have hfa2 : fa = mkIfA p l cur := hfa
          refine List.mem_append.mpr (Or.inl (List.mem_append.mpr (Or.inl ?_)))
          rw [if_pos hra2, hfa2]
          exact List.mem_singleton_self _
        · rw [h0] at hfa
          have hrb2 : r = l.b := hrb
          have hfb2 : fa = mkIfB p l cur := hfa
          refine List.mem_append.mpr (Or.inl (List.mem_append.mpr (Or.inr ?_)))
          rw [if_pos hrb2, hfb2]
          exact List.mem_singleton_self _
      | succ j =>
        have hj : j < t.length := Nat.lt_of_succ_lt_succ hk
        have harith : cur + (j + 1) * blockSize w p =
            cur + blockSize w p + j * blockSize w p := by
          rw [Nat.succ_mul]
          omega
        show fa ∈ (if r = l.a then [mkIfA p l cur] else []) ++
          (if r = l.b then [mkIfB p l cur] else []) ++
          bgpIfacesFrom w p t (cur + blockSize w p) r
        refine List.mem_append.mpr (Or.inr ?_)
        refine (ih (cur + blockSize w p) r fa).mpr ⟨j, hj, ?_⟩
        rw [harith] at hcase
        exact hcase

theorem bgpIfacesFrom_linkNet_ge (w p : Nat) (ls : List Link) (cur : Nat)
    (r : String) (fa : IfaceBgp) (h : fa ∈ bgpIfacesFrom w p ls cur r) :
    cur ≤ fa.linkNet := by
  obtain ⟨k, hk, hcase⟩ := (mem_bgpIfacesFrom w p ls cur r fa).mp h
  rcases hcase with ⟨_, hfa⟩ | ⟨_, hfa⟩ <;>
    · rw [hfa]
      show cur ≤ cur + k * blockSize w p
      omega

theorem bgpIfacesFrom_keys_nodup (w p : Nat) :
    ∀ (ls : List Link) (cur : Nat) (r : String),
      (∀ l ∈ ls, l.a ≠ l.b) →
      ((bgpIfacesFrom w p ls cur r).map IfaceBgp.linkNet).Nodup := by
  intro ls
  induction ls with
  | nil =>
    intro cur r _
    exact List.nodup_nil
  | cons l t ih =>
    intro cur r hends
    have hab : l.a ≠ l.b := hends l (List.mem_cons_self l t)
    have hrest := ih (cur + blockSize w p) r
      (fun l2 hl2 => hends l2 (List.mem_cons_of_mem l hl2))
    have hgt : ∀ v ∈ (bgpIfacesFrom w p t (cur + blockSize w p) r).map
        IfaceBgp.linkNet, cur < v := by
      intro v hv
      obtain ⟨fb, hfb, hfbv⟩ := List.mem_map.mp hv
      have := bgpIfacesFrom_linkNet_ge w p t (cur + blockSize w p) r fb hfb
      have hbs := blockSize_pos w p
      omega
    show ((if r = l.a then [mkIfA p l cur] else []) ++
      (if r = l.b then [mkIfB p l cur] else []) ++
      bgpIfacesFrom w p t (cur + blockSize w p) r).map IfaceBgp.linkNet
      |>.Nodup
    by_cases hra : r = l.a
    · have hrb : r ≠ l.b := fun h => hab (hra.symm.trans h)
      rw [if_pos hra, if_neg hrb]
      show (cur :: (bgpIfacesFrom w p t (cur + blockSize w p) r).map
        IfaceBgp.linkNet).Nodup
      refine List.nodup_cons.mpr ⟨?_, hrest⟩
      intro hmem
      exact absurd (hgt cur hmem) (lt_irrefl cur)
    · rw [if_neg hra]
      by_cases hrb : r = l.b
      · rw [if_pos hrb]
        show (cur :: (bgpIfacesFrom w p t (cur + blockSize w p) r).map
          IfaceBgp.linkNet).Nodup
        refine List.nodup_cons.mpr ⟨?_, hrest⟩
        intro hmem
        exact absurd (hgt cur hmem) (lt_irrefl cur)
      · rw [if_neg hrb]
        show ((bgpIfacesFrom w p t (cur + blockSize w p) r).map
          IfaceBgp.linkNet).Nodup
        exact hrest

theorem find?_eq_some_of_unique {α : Type} (q : α → Bool) :
    ∀ (xs : List α) (x : α), x ∈ xs → q x = true →
      (∀ z ∈ xs, q z = true → z = x) → xs.find? q = some x := by
  intro xs
  induction xs with
  | nil =>
    intro x hx
    exact absurd hx (List.not_mem_nil x)
  | cons h t ih =>
    intro x hx hqx huniq
    by_cases hqh : q h = true
    · rw [List.find?_cons_of_pos _ hqh]
      rw [huniq h (List.mem_cons_self h t) hqh]
    · have hxt : x ∈ t := by
        rcases List.mem_cons.mp hx with rfl | h2
        · exact absurd hqx hqh
        · exact h2
      rw [List.find?_cons_of_neg _ (by simpa using hqh)]
      exact ih x hxt hqx (fun z hz hqz => huniq z (List.mem_cons_of_mem h hz) hqz)

theorem filterMap_eq_single_of_key {α β : Type} (key : α → Nat)
    (f : α → Option β) :
    ∀ (xs : List α) (x : α) (y : β),
      (xs.map key).Nodup → x ∈ xs → f x = some y →
      (∀ z ∈ xs, key z ≠ key x → f z = none) →
      xs.filterMap f = [y] := by
  intro xs
  induction xs with
  | nil =>
    intro x y _ hx
    exact absurd hx (List.not_mem_nil x)
  | cons h t ih =>
    intro x y hnd hx hfx hother
    have hcons : ((h :: t).map key) = key h :: t.map key := rfl
    rw [hcons] at hnd
    have hnd1 : key h ∉ t.map key := (List.nodup_cons.mp hnd).1
    have hnd2 : (t.map key).Nodup := (List.nodup_cons.mp hnd).2
    rcases List.mem_cons.mp hx with rfl | hxt
    · rw [List.filterMap_cons_some hfx]
      have hrest : t.filterMap f = [] := by
        rw [List.filterMap_eq_nil_iff]
        intro z hz
        refine hother z (List.mem_cons_of_mem _ hz) ?_
        intro hkey
        exact hnd1 (hkey ▸ List.mem_map_of_mem key hz)
      rw [hrest]
    · have hkey : key h ≠ key x := by
        intro hk
        exact hnd1 (hk ▸ List.mem_map_of_mem key hxt)
      have hfh : f h = none := hother h (List.mem_cons_self h t) hkey
      rw [List.filterMap_cons_none hfh]
      exact ih x y hnd2 hxt hfx
        (fun z hz hkz => hother z (List.mem_cons_of_mem h hz) hkz)

/-- For links with distinct endpoints, no two of which join the same router
pair, the neighbor scan of the `k`-th link matches exactly one interface
pair: the two interfaces allocated for that link. -/
theorem neighborPairs_single (w p : Nat) (links : List Link) (base : Nat)
    (hends : ∀ l ∈ links, l.a ≠ l.b)
    (hnopar : links.Pairwise (fun l1 l2 => ¬ sameEnds l1 l2)) :
    ∀ k (hk : k < links.length),
      neighborPairs
        (bgpIfacesFrom w p links base ((links.get ⟨k, hk⟩).a))
        (bgpIfacesFrom w p links base ((links.get ⟨k, hk⟩).b)) =
      [(mkIfA p (links.get ⟨k, hk⟩) (base + k * blockSize w p),
        mkIfB p (links.get ⟨k, hk⟩) (base + k * blockSize w p))] := by
  intro k hk
  have hbs := blockSize_pos w p
  have hpw : ∀ i j (hi : i < links.length) (hj : j < links.length), i ≠ j →
      ¬ sameEnds (links.get ⟨i, hi⟩) (links.get ⟨j, hj⟩) := by
    intro i j hi hj hij
    rcases Nat.lt_or_ge i j with hlt | hge
    · exact List.pairwise_iff_get.mp hnopar ⟨i, hi⟩ ⟨j, hj⟩ hlt
    · have hji : j < i := by omega
      intro hsame
      exact List.pairwise_iff_get.mp hnopar ⟨j, hj⟩ ⟨i, hi⟩ hji
        (sameEnds_symm hsame)
  have hinj : ∀ i j : Nat,
      base + i * blockSize w p = base + j * blockSize w p → i = j := by
    intro i j h
    have h2 : i * blockSize w p = j * blockSize w p := by omega
    exact Nat.eq_of_mul_eq_mul_right hbs h2
  have hfind : (bgpIfacesFrom w p links base ((links.get ⟨k, hk⟩).b)).find?
      (fun fb => fb.linkNet ==
        (mkIfA p (links.get ⟨k, hk⟩) (base + k * blockSize w p)).linkNet) =
      some (mkIfB p (links.get ⟨k, hk⟩) (base + k * blockSize w p)) := by
    apply find?_eq_some_of_unique
    · exact (mem_bgpIfacesFrom w p links base _ _).mpr
        ⟨k, hk, Or.inr ⟨rfl, rfl⟩⟩
    · simp [mkIfA, mkIfB]
    · intro z hz hqz
      obtain ⟨j, hj, hcase⟩ := (mem_bgpIfacesFrom w p links base _ z).mp hz
      have hzlink : z.linkNet = base + j * blockSize w p := by
        rcases hcase with ⟨_, hfa⟩ | ⟨_, hfa⟩ <;> rw [hfa] <;> rfl
      have hq : z.linkNet = base + k * blockSize w p := eq_of_beq hqz
      have hjk : j = k := hinj j k (by rw [← hzlink, hq])
      subst hjk
      rcases hcase with ⟨hside, hfa⟩ | ⟨hside, hfa⟩
      · exact absurd hside.symm
          (hends (links.get ⟨j, hj⟩) (List.get_mem links j hj))
      · exact hfa
  show (bgpIfacesFrom w p links base ((links.get ⟨k, hk⟩).a)).filterMap
      (fun fa => ((bgpIfacesFrom w p links base
          ((links.get ⟨k, hk⟩).b)).find?
        (fun fb => fb.linkNet == fa.linkNet)).map (fun fb => (fa, fb))) = _
  refine filterMap_eq_single_of_key IfaceBgp.linkNet _ _
    (mkIfA p (links.get ⟨k, hk⟩) (base + k * blockSize w p)) _
    (bgpIfacesFrom_keys_nodup w p links base _ hends) ?_ ?_ ?_
  · exact (mem_bgpIfacesFrom w p links base _ _).mpr
      ⟨k, hk, Or.inl ⟨rfl, rfl⟩⟩
  · rw [hfind]
    rfl
  · intro z hz hkey
    have hnone : (bgpIfacesFrom w p links base
        ((links.get ⟨k, hk⟩).b)).find?
        (fun fb => fb.linkNet == z.linkNet) = none := by
      rw [List.find?_eq_none]
      intro fb hfb hq
      obtain ⟨i, hi, hcasez⟩ := (mem_bgpIfacesFrom w p links base _ z).mp hz
      obtain ⟨j, hj, hcaseb⟩ := (mem_bgpIfacesFrom w p links base _ fb).mp hfb
      have hzl : z.linkNet = base + i * blockSize w p := by
        rcases hcasez with ⟨_, hfa⟩ | ⟨_, hfa⟩ <;> rw [hfa] <;> rfl
      have hbl : fb.linkNet = base + j * blockSize w p := by
        rcases hcaseb with ⟨_, hfa⟩ | ⟨_, hfa⟩ <;> rw [hfa] <;> rfl
      have hji : j = i := hinj j i (by
        rw [← hbl, ← hzl]
        exact eq_of_beq hq)
      subst hji
      have hik : j ≠ k := by
        intro h
        apply hkey
        rw [hzl, h]
        rfl
      have hsa : (links.get ⟨k, hk⟩).a = (links.get ⟨j, hi⟩).a ∨
          (links.get ⟨k, hk⟩).a = (links.get ⟨j, hi⟩).b := by
        rcases hcasez with ⟨hs, _⟩ | ⟨hs, _⟩
        · exact Or.inl hs
        · exact Or.inr hs
      have hsb : (links.get ⟨k, hk⟩).b = (links.get ⟨j, hi⟩).a ∨
          (links.get ⟨k, hk⟩).b = (links.get ⟨j, hi⟩).b := by
        rcases hcaseb with ⟨hs, _⟩ | ⟨hs, _⟩
        · exact Or.inl hs
        · exact Or.inr hs
      have hsame : sameEnds (links.get ⟨j, hi⟩) (links.get ⟨k, hk⟩) :=
        sameEnds_of_shared _ _
          (hends (links.get ⟨k, hk⟩) (List.get_mem links k hk)) hsa hsb
      exact hpw j k hi hk hik hsame
    rw [hnone]
    rfl

/-- Neighbor records contributed to router `r` by the links `ls` (blocks
starting at `cur`), when every link matches exactly its own interface pair:
one record on each side per link, the `ip` field holding the peer's own
allocated address. -/
def nbContribs (w p : Nat) (asn : String → Option Nat) :
    List Link → Nat → String → List NeighborRec
  | [], _, _ => []
  | l :: ls, cur, r =>
    (if r = l.a then [⟨l.b, (asn l.b).getD 0, ipv6Str (cur + 2)⟩] else []) ++
    (if r = l.b then [⟨l.a, (asn l.a).getD 0, ipv6Str (cur + 1)⟩] else []) ++
    nbContribs w p asn ls (cur + blockSize w p) r

theorem router_to_asn_isSome (rs : List String) (asnBase : Nat) (n : String)
    (hn : n ∈ rs) : (router_to_asn rs asnBase n).isSome := by
  obtain ⟨v, hv⟩ := assignAsnAux_mem_isSome asnBase (sortNames rs) 0
    (fun _ => none) n (((sortNames_perm rs).mem_iff).mpr hn)
  show (assignAsnAux asnBase (sortNames rs) 0 (fun _ => none) n).isSome
  rw [hv]
  rfl

theorem nbFold_characterization (w p : Nat) (cfg : String → List IfaceBgp)
    (asn : String → Option Nat) :
    ∀ (ls : List Link) (cur : Nat) (m : String → List NeighborRec),
      (∀ k (hk : k < ls.length),
        neighborPairs (cfg ((ls.get ⟨k, hk⟩).a)) (cfg ((ls.get ⟨k, hk⟩).b)) =
          [(mkIfA p (ls.get ⟨k, hk⟩) (cur + k * blockSize w p),
            mkIfB p (ls.get ⟨k, hk⟩) (cur + k * blockSize w p))]) →
      (∀ l ∈ ls, (asn l.a).isSome ∧ (asn l.b).isSome) →
      ∃ nb, ls.foldl (fun om l => om.bind (fun m2 => nbStep cfg asn m2 l))
          (some m) = some nb ∧
        ∀ r, nb r = m r ++ nbContribs w p asn ls cur r := by
  intro ls
  induction ls with
  | nil =>
    intro cur m _ _
    refine ⟨m, rfl, fun r => ?_⟩
    show m r = m r ++ nbContribs w p asn [] cur r
    simp [nbContribs]
  | cons l t ih =>
    intro cur m hpairs hasn
    obtain ⟨va, hva⟩ := Option.isSome_iff_exists.mp
      (hasn l (List.mem_cons_self l t)).1
    obtain ⟨vb, hvb⟩ := Option.isSome_iff_exists.mp
      (hasn l (List.mem_cons_self l t)).2
    have hpair0 := hpairs 0 (Nat.succ_pos _)
    have h0 : cur + 0 * blockSize w p = cur := by simp
    rw [h0] at hpair0
    have hp : neighborPairs (cfg l.a) (cfg l.b) =
        [(mkIfA p l cur, mkIfB p l cur)] := hpair0
    have hstep : nbStep cfg asn m l = some (updList (updList m l.a
        ⟨l.b, vb, (mkIfB p l cur).ip⟩) l.b ⟨l.a, va, (mkIfA p l cur).ip⟩) := by
      unfold nbStep
      rw [hp, hvb, hva]
      rfl
    have hpairs' : ∀ k (hk : k < t.length),
        neighborPairs (cfg ((t.get ⟨k, hk⟩).a)) (cfg ((t.get ⟨k, hk⟩).b)) =
          [(mkIfA p (t.get ⟨k, hk⟩)
              (cur + blockSize w p + k * blockSize w p),
            mkIfB p (t.get ⟨k, hk⟩)
              (cur + blockSize w p + k * blockSize w p))] := by
      intro k hkk
      have h1 := hpairs (k + 1) (Nat.succ_lt_succ hkk)
      have harith : cur + (k + 1) * blockSize w p =
          cur + blockSize w p + k * blockSize w p := by
        rw [Nat.succ_mul]
        omega
      rw [harith] at h1
      exact h1
    obtain ⟨nb, hrun, hnb⟩ := ih (cur + blockSize w p)
      (updList (updList m l.a ⟨l.b, vb, (mkIfB p l cur).ip⟩) l.b
        ⟨l.a, va, (mkIfA p l cur).ip⟩) hpairs'
      (fun l2 hl2 => hasn l2 (List.mem_cons_of_mem l hl2))
    refine ⟨nb, ?_, ?_⟩
    · show t.foldl _ ((some m).bind (fun m2 => nbStep cfg asn m2 l)) = some nb
      have hb : (some m).bind (fun m2 => nbStep cfg asn m2 l) =
          nbStep cfg asn m l := rfl
      rw [hb, hstep]
      exact hrun
    · intro r
      rw [hnb r, updList_updList]
      have hcons : nbContribs w p asn (l :: t) cur r =
          (if r = l.a then
            [⟨l.b, (asn l.b).getD 0, ipv6Str (cur + 2)⟩] else []) ++
          (if r = l.b then
            [⟨l.a, (asn l.a).getD 0, ipv6Str (cur + 1)⟩] else []) ++
          nbContribs w p asn t (cur + blockSize w p) r := rfl
      rw [hcons, hva, hvb]
      simp [List.append_assoc, mkIfA, mkIfB]

/-- C2 amended: for link lists in which every link joins two distinct
routers known to the router list and no two links join the same router pair,
each processed link produces exactly one pair of neighbor records — one
appended to `a`'s list naming `b` with `b`'s ASN and `b`'s allocated address
on that link, and the symmetric one appended to `b`'s list — resolved by
matching the interface assignments that share the link's subnet identity, so
the correct pair is found even when a router has several interfaces, and no
extra or duplicate records are produced.  (The restriction to non-parallel
links is forced by the counterexample: the source's `break` only exits the
inner loop.) -/
theorem c2_neighbor_pairs_amended (w p : Nat) (links : List Link)
    (routers : List String) (base asnBase : Nat)
    (hp : p < w) (hw : w ≤ 128)
    (halign : base % blockSize w p = 0)
    (hspace : base + links.length * blockSize w p < 2 ^ w)
    (hends : ∀ l ∈ links, l.a ≠ l.b ∧ l.a ∈ routers ∧ l.b ∈ routers)
    (hnopar : links.Pairwise (fun l1 l2 => ¬ sameEnds l1 l2)) :
    ∃ st nb, bgpAlloc w p links base = some st ∧
      bgpNeighbors links st.ifaces (router_to_asn routers asnBase) =
        some nb ∧
      ∀ r, nb r =
        nbContribs w p (router_to_asn routers asnBase) links base r := by
  obtain ⟨st, hrun, _, hifs, _⟩ := bgpFold_characterization w p hp hw links
    base (fun _ => []) [] halign hspace
  have hends1 : ∀ l ∈ links, l.a ≠ l.b := fun l hl => (hends l hl).1
  have hcfg : ∀ r, st.ifaces r = bgpIfacesFrom w p links base r := by
    intro r
    rw [hifs r]
    exact List.nil_append _
  have hpairs : ∀ k (hk : k < links.length),
      neighborPairs (st.ifaces ((links.get ⟨k, hk⟩).a))
        (st.ifaces ((links.get ⟨k, hk⟩).b)) =
        [(mkIfA p (links.get ⟨k, hk⟩) (base + k * blockSize w p),
          mkIfB p (links.get ⟨k, hk⟩) (base + k * blockSize w p))] := by
    intro k hk
    rw [hcfg, hcfg]
    exact neighborPairs_single w p links base hends1 hnopar k hk
  have hasn : ∀ l ∈ links,
      ((router_to_asn routers asnBase) l.a).isSome ∧
      ((router_to_asn routers asnBase) l.b).isSome := by
    intro l hl
    exact ⟨router_to_asn_isSome routers asnBase l.a (hends l hl).2.1,
      router_to_asn_isSome routers asnBase l.b (hends l hl).2.2⟩
  obtain ⟨nb, hnrun, hnb⟩ := nbFold_characterization w p st.ifaces
    (router_to_asn routers asnBase) links base (fun _ => []) hpairs hasn
  refine ⟨st, nb, hrun, hnrun, fun r => ?_⟩
  rw [hnb r]
  exact List.nil_append _

/-- Witness for C2 amended: one link `A–B` on a `/64` IPv6 base. -/
theorem c2_neighbor_pairs_amended_witness :
    (64 < 128 ∧ (128 : Nat) ≤ 128 ∧
      0x20000001000000000000000000000000 % blockSize 128 64 = 0 ∧
      0x20000001000000000000000000000000 +
        ([⟨"A", "f0", "B", "f0"⟩] : List Link).length * blockSize 128 64 <
          2 ^ 128 ∧
      (∀ l ∈ ([⟨"A", "f0", "B", "f0"⟩] : List Link),
        l.a ≠ l.b ∧ l.a ∈ ["A", "B"] ∧ l.b ∈ ["A", "B"]) ∧
      ([⟨"A", "f0", "B", "f0"⟩] : List Link).Pairwise
        (fun l1 l2 => ¬ sameEnds l1 l2)) ∧
    (∃ st nb, bgpAlloc 128 64 [⟨"A", "f0", "B", "f0"⟩]
        0x20000001000000000000000000000000 = some st ∧
      bgpNeighbors [⟨"A", "f0", "B", "f0"⟩] st.ifaces
        (router_to_asn ["A", "B"] 65000) = some nb ∧
      ∀ r, nb r = nbContribs 128 64 (router_to_asn ["A", "B"] 65000)
        [⟨"A", "f0", "B", "f0"⟩] 0x20000001000000000000000000000000 r) :=
  ⟨⟨by decide, by decide, by decide, by decide, by decide, by simp⟩,
    c2_neighbor_pairs_amended 128 64 [⟨"A", "f0", "B", "f0"⟩] ["A", "B"]
      0x20000001000000000000000000000000 65000 (by decide) (by decide)
      (by decide) (by decide) (by decide) (by simp)⟩
